import Mathlib

/-!
Verification of the consolidation engine of `pixi-devenv`.

The Python package consolidates a DAG of `pixi.devenv.toml` project files
(dependency specs, environment variables, target-platform overrides and named
features) into a single configuration.  This file gives a shallow embedding of
the core data model and algorithms:

* `src/pixi_devenv/project.py`   — `Spec`, `Aspect`, `Feature`, `Inheritance`, `Project`
* `src/pixi_devenv/workspace.py` — `Workspace.from_starting_file` (graph traversal +
  topological ordering via `graphlib.TopologicalSorter`)
* `src/pixi_devenv/consolidate.py` — `MergedSpec`, `ResolvedEnvVar`,
  `MergedEnvVarValue`, `_consolidate_aspects`, `_consolidate_target`,
  `_consolidate_feature`, `consolidate_devenv`

Python dictionaries are modelled as association lists in insertion order
(`alookup` / `aset` below), matching CPython's ordered-dict iteration.
Python exceptions raised by the engine are modelled with `Except`.
-/

namespace PixiDevenv

/-- Project names (`ProjectName = NewType("ProjectName", str)` in `project.py`). -/
abbrev ProjectName := String

instance {ε α : Type} [DecidableEq ε] [DecidableEq α] : DecidableEq (Except ε α) := fun a b =>
  match a, b with
  | .ok x, .ok y =>
    if h : x = y then isTrue (by rw [h]) else isFalse (fun c => h (Except.ok.inj c))
  | .error x, .error y =>
    if h : x = y then isTrue (by rw [h]) else isFalse (fun c => h (Except.error.inj c))
  | .ok _, .error _ => isFalse (fun c => Except.noConfusion c)
  | .error _, .ok _ => isFalse (fun c => Except.noConfusion c)

/-- Lookup in an insertion-ordered association list; models `d[k]` / `d.get(k)`
for a Python dict (keys are unique in every dict the engine builds). -/
def alookup {α : Type} (l : List (String × α)) (k : String) : Option α :=
  (l.find? (fun kv => kv.1 = k)).map (fun kv => kv.2)

/-- Models Python dict assignment `d[k] = v`: replaces the value in place when
the key is present, otherwise appends the new entry at the end. -/
def aset {α : Type} (l : List (String × α)) (k : String) (v : α) : List (String × α) :=
  if (alookup l k).isSome then
    l.map (fun kv => if kv.1 = k then (k, v) else kv)
  else
    l ++ [(k, v)]

/-- The keys of an association list, in insertion order. -/
def akeys {α : Type} (l : List (String × α)) : List String :=
  l.map (fun kv => kv.1)

/-- Errors raised by the consolidation engine.  `conflictingBuilds`,
`conflictingChannels` and `incompatibleEnvVar` model `DevEnvError` raises in
`consolidate.py`; `keyError` and `valueError` model the `KeyError` /
`ValueError` that CPython's `str.format` raises; `pathError` models the
`ValueError` of `Path.relative_to` on a non-subpath. -/
inductive Err : Type
  | conflictingBuilds (spec_name : String) (older newer : List ProjectName) (b1 b2 : String)
  | conflictingChannels (spec_name : String) (older newer : List ProjectName) (c1 c2 : String)
  | incompatibleEnvVar : Err
  | keyError (key : String)
  | valueError : Err
  | pathError : Err
deriving DecidableEq, Repr

/-- Schema for a package spec (`project.py::Spec`); a bare string in the TOML
file is normalized into `{version := v}`. -/
structure Spec where
  version : String
  build : String := ""
  channel : String := ""
deriving DecidableEq, Repr

instance : Inhabited Spec := ⟨⟨"*", "", ""⟩⟩

/-- The untagged union `Spec | str` accepted by the dependency tables. -/
inductive SpecOrStr : Type
  | spec (s : Spec)
  | str (version : String)
deriving DecidableEq, Repr

/-- `Spec.normalized` (`project.py`): a bare string becomes a version-only spec. -/
def Spec.normalized : SpecOrStr → Spec
  | .str version => { version := version }
  | .spec s => s

/-- `Spec.is_version_only` (`project.py`). -/
def Spec.is_version_only (s : Spec) : Bool :=
  s.build = "" && s.channel = ""

/-- `EnvVarValue = Union[str, tuple[str, ...]]` (`project.py`). -/
inductive EnvVarValue : Type
  | scalar (s : String)
  | list (xs : List String)
deriving DecidableEq, Repr

/-- One alternative of `bool | Include | Exclude` in an `[devenv.inherit]`
section (`project.py::Include` / `project.py::Exclude`; `flag` is the plain
boolean form). -/
inductive InheritRule : Type
  | flag (b : Bool)
  | included (names : List ProjectName)
  | excluded (names : List ProjectName)
deriving DecidableEq, Repr

/-- Python truthiness of a `bool | Include | Exclude` value: `False` is falsy,
everything else (including `Include(())`/`Exclude(())`) is truthy.  Used by the
walrus test in `Inheritance.use_feature`. -/
def InheritRule.isTruthy : InheritRule → Bool
  | .flag b => b
  | .included _ => true
  | .excluded _ => true

/-- `project.py::Inheritance`. -/
structure Inheritance where
  dependencies : InheritRule := .flag true
  pypi_dependencies : InheritRule := .flag true
  env_vars : InheritRule := .flag true
  features : List (String × InheritRule) := []
deriving DecidableEq, Repr

instance : Inhabited Inheritance := ⟨{}⟩

/-- `project.py::Aspect`: dependencies, pypi-dependencies, constraints and
env-vars of a project root or of one target section. -/
structure Aspect where
  dependencies : List (String × SpecOrStr) := []
  pypi_dependencies : List (String × SpecOrStr) := []
  constraints : List (String × SpecOrStr) := []
  env_vars : List (String × EnvVarValue) := []
deriving DecidableEq, Repr

instance : Inhabited Aspect := ⟨{}⟩

/-- `project.py::Feature`: an aspect plus per-target aspects. -/
structure Feature where
  dependencies : List (String × SpecOrStr) := []
  pypi_dependencies : List (String × SpecOrStr) := []
  constraints : List (String × SpecOrStr) := []
  env_vars : List (String × EnvVarValue) := []
  target : List (String × Aspect) := []
deriving DecidableEq, Repr

/-- `Feature.get_aspect` (`project.py`). -/
def Feature.get_aspect (f : Feature) : Aspect :=
  { dependencies := f.dependencies
    pypi_dependencies := f.pypi_dependencies
    constraints := f.constraints
    env_vars := f.env_vars }

/-- `project.py::Project`.  The `name` is derived from the directory by the
file loader; `upstream` references are modelled already resolved to project
names (path resolution and TOML parsing are the excluded file-loading
collaborator); `directory` is the absolute directory of the project's
`pixi.devenv.toml`, as path segments. -/
structure Project where
  name : ProjectName
  channels : List String := []
  platforms : List String := []
  upstream : List ProjectName := []
  dependencies : List (String × SpecOrStr) := []
  pypi_dependencies : List (String × SpecOrStr) := []
  constraints : List (String × SpecOrStr) := []
  env_vars : List (String × EnvVarValue) := []
  target : List (String × Aspect) := []
  feature : List (String × Feature) := []
  inherit : Inheritance := {}
  directory : List String := []
deriving DecidableEq, Repr

/-- `Project.get_root_aspect` (`project.py`). -/
def Project.get_root_aspect (p : Project) : Aspect :=
  { dependencies := p.dependencies
    pypi_dependencies := p.pypi_dependencies
    constraints := p.constraints
    env_vars := p.env_vars }

/-- `Inheritance._evaluate_for_project` (`project.py`): the starting project is
always included; otherwise consult the include/exclude/boolean rule. -/
def Inheritance.evaluate_for_project
    (include_exclude : InheritRule) (name : ProjectName) (starting_project : Project) : Bool :=
  if name = starting_project.name then
    true
  else
    match include_exclude with
    | .included names => name ∈ names
    | .excluded names => name ∉ names
    | .flag b => b

/-- `Inheritance.use_dependencies` (`project.py`). -/
def Inheritance.use_dependencies (inh : Inheritance) (name : ProjectName) (starting_project : Project) : Bool :=
  Inheritance.evaluate_for_project inh.dependencies name starting_project

/-- `Inheritance.use_pypi_dependencies` (`project.py`). -/
def Inheritance.use_pypi_dependencies (inh : Inheritance) (name : ProjectName) (starting_project : Project) : Bool :=
  Inheritance.evaluate_for_project inh.pypi_dependencies name starting_project

/-- `Inheritance.use_env_vars` (`project.py`). -/
def Inheritance.use_env_vars (inh : Inheritance) (name : ProjectName) (starting_project : Project) : Bool :=
  Inheritance.evaluate_for_project inh.env_vars name starting_project

/-- `Inheritance.use_feature` (`project.py`): a feature the starting project
itself declares is inherited from everybody; otherwise a truthy entry of the
`inherit.features` map is evaluated (the walrus `if include_exclude := ...`
skips a `False` entry), and with no entry nothing is inherited. -/
def Inheritance.use_feature (inh : Inheritance) (feature_name : String)
    (project_name : ProjectName) (starting_project : Project) : Bool :=
  if (alookup starting_project.feature feature_name).isSome then
    true
  else
    match alookup inh.features feature_name with
    | some include_exclude =>
        if include_exclude.isTruthy then
          Inheritance.evaluate_for_project include_exclude project_name starting_project
        else
          false
    | none => false

/-- `consolidate.py::MergedSpec`: a spec together with the projects that
contributed to it. -/
structure MergedSpec where
  sources : List ProjectName
  spec : Spec
deriving DecidableEq, Repr

/-- `MergedSpec.add` (`consolidate.py`): merge a further spec into the running
merged value.  Wildcard `"*"` versions collapse, otherwise version constraints
concatenate with a comma; `build` and `channel` keep the first non-empty value
and two different non-empty values are a fatal conflict (build checked first). -/
def MergedSpec.add (m : MergedSpec) (spec_name : String) (sources : List ProjectName)
    (spec : Spec) : Except Err MergedSpec :=
  let version :=
    if m.spec.version ≠ "*" && spec.version ≠ "*" then
      m.spec.version ++ "," ++ spec.version
    else if m.spec.version ≠ "*" then
      m.spec.version
    else
      spec.version
  if m.spec.build ≠ "" && spec.build ≠ "" && m.spec.build ≠ spec.build then
    .error (.conflictingBuilds spec_name m.sources sources m.spec.build spec.build)
  else
    let build := if m.spec.build ≠ "" then m.spec.build else spec.build
    if m.spec.channel ≠ "" && spec.channel ≠ "" && m.spec.channel ≠ spec.channel then
      .error (.conflictingChannels spec_name m.sources sources m.spec.channel spec.channel)
    else
      let channel := if m.spec.channel ≠ "" then m.spec.channel else spec.channel
      .ok { sources := m.sources ++ sources
            spec := { version := version, build := build, channel := channel } }

/-- `consolidate.py::ResolvedEnvVar`: an env-var value whose pixi-devenv
placeholders have been substituted. -/
structure ResolvedEnvVar where
  value : EnvVarValue
deriving DecidableEq, Repr

/-- `consolidate.py::MergedEnvVarValue`: an env-var value with its
contributing projects. -/
structure MergedEnvVarValue where
  sources : List ProjectName
  var : ResolvedEnvVar
deriving DecidableEq, Repr

/-- `MergedEnvVarValue.merge` (`consolidate.py`): `self` is the value merged so
far (older contributors), `other` the newly contributed value.  A scalar
replaces a scalar; a list is concatenated as `self.var.value + other.var.value`
(the older items first); a scalar/list mismatch is a fatal error. -/
def MergedEnvVarValue.merge (self other : MergedEnvVarValue) : Except Err MergedEnvVarValue :=
  let sources := self.sources ++ other.sources
  match other.var.value with
  | .scalar _ =>
    match self.var.value with
    | .scalar _ => .ok { sources := sources, var := other.var }
    | .list _ => .error .incompatibleEnvVar
  | .list xs =>
    match self.var.value with
    | .list ys => .ok { sources := sources, var := { value := .list (ys ++ xs) } }
    | .scalar _ => .error .incompatibleEnvVar

/-- Fuel-based model of CPython `str.format` applied with the single keyword
mapping `devenv_project_dir = val` (the only call in `ResolvedEnvVar.resolve`):
`\x7b\x7b`/`\x7d\x7d` are brace escapes, a lone `\x7d` is a `ValueError`, a
field `\x7bname\x7d` substitutes `val` when `name` is `devenv_project_dir` and
raises `KeyError(name)` otherwise, an unterminated field is a `ValueError`, and
every other character (in particular `$`-style identifiers) passes through
unchanged.  Conversion suffixes and format specs (`!`/`:`) are not modelled:
the engine's mapping value is a plain path and the claims never use them.
The fuel decreases at least once per consumed character, so `length + 1`
suffices. -/
def pyFormatAux (val : String) : Nat → List Char → Except Err (List Char)
  | _, [] => .ok []
  | 0, _ :: _ => .error .valueError
  | fuel + 1, c :: rest =>
    if c = '\x7d' then
      match rest with
      | '\x7d' :: rest' => (pyFormatAux val fuel rest').map (fun t => '\x7d' :: t)
      | _ => .error .valueError
    else if c = '\x7b' then
      match rest with
      | '\x7b' :: rest' => (pyFormatAux val fuel rest').map (fun t => '\x7b' :: t)
      | _ =>
        let field := rest.takeWhile (fun d => d ≠ '\x7d')
        match rest.dropWhile (fun d => d ≠ '\x7d') with
        | _ :: rest' =>
          if field = "devenv_project_dir".toList then
            (pyFormatAux val fuel rest').map (fun t => val.toList ++ t)
          else
            .error (.keyError (String.mk field))
        | [] => .error .valueError
    else
      (pyFormatAux val fuel rest).map (fun t => c :: t)

/-- `s.format(devenv_project_dir = val)` as used by `ResolvedEnvVar.resolve`. -/
def pyFormat (val : String) (s : String) : Except Err String :=
  (pyFormatAux val (s.toList.length + 1) s.toList).map String.mk

/-- Apply a fallible function to every element, stopping at the first failure
(the evaluation order of Python's `tuple(f(x) for x in values)`). -/
def exceptMapList (f : String → Except Err String) : List String → Except Err (List String)
  | [] => .ok []
  | x :: xs => do
    let y ← f x
    let ys ← exceptMapList f xs
    pure (y :: ys)

/-- Models `project_dir.relative_to(starting_dir)` on directories given as
segment lists: strips `base` as a leading run of segments, `none` (a Python
`ValueError`) when `base` is not an ancestor.  Project directories are absolute
and already normalized, so the subsequent `os.path.normpath` is the identity on
the returned segments (and turns the empty relative path into `"."`, which
`PurePath` drops again — see `projectRootPosix`). -/
def relativeSegments : List String → List String → Option (List String)
  | [], target => some target
  | _ :: _, [] => none
  | b :: bs, t :: ts => if t = b then relativeSegments bs ts else none

/-- Models `PurePath("${PIXI_PROJECT_ROOT}", normalized).as_posix()`: the
workspace-root token followed by the relative segments joined with `/` (for an
empty relative path, `PurePath` drops the `"."` and the result is the bare
token). -/
def projectRootPosix (rel : List String) : String :=
  "${PIXI_PROJECT_ROOT}" ++ rel.foldl (fun acc seg => acc ++ "/" ++ seg) ""

/-- `workspace.py::Workspace`: the resolved project graph.  `graph` maps each
project to its direct upstream projects; `upstream_to_downstream_order` is the
topological order computed by `from_starting_file`. -/
structure Workspace where
  starting_project : Project
  projects : List (ProjectName × Project)
  graph : List (ProjectName × List ProjectName)
  upstream_to_downstream_order : List ProjectName
deriving DecidableEq, Repr

/-- `Workspace.iter_downstream`: projects from the most upstream down to the
starting project. -/
def Workspace.iter_downstream (ws : Workspace) : List Project :=
  ws.upstream_to_downstream_order.filterMap (fun n => alookup ws.projects n)

/-- `Workspace.iter_upstream`: the reverse iteration, starting project first. -/
def Workspace.iter_upstream (ws : Workspace) : List Project :=
  ws.upstream_to_downstream_order.reverse.filterMap (fun n => alookup ws.projects n)

/-- `ResolvedEnvVar.resolve` (`consolidate.py`): substitute the
`devenv_project_dir` placeholder — the contributing project's directory
relative to the starting project's, rooted at `${PIXI_PROJECT_ROOT}` — into
every string component of the raw value. -/
def ResolvedEnvVar.resolve (project : Project) (ws : Workspace) (value : EnvVarValue) :
    Except Err ResolvedEnvVar :=
  match relativeSegments ws.starting_project.directory project.directory with
  | none => .error .pathError
  | some rel =>
    let mappingVal := projectRootPosix rel
    match value with
    | .scalar s => (pyFormat mappingVal s).map (fun r => ⟨.scalar r⟩)
    | .list xs => (exceptMapList (pyFormat mappingVal) xs).map (fun rs => ⟨.list rs⟩)

/-- `Project | FeatureWithProject` as passed around `_consolidate_aspects` and
`_consolidate_target` (`consolidate.py::FeatureWithProject`). -/
inductive ProjectOrFeature : Type
  | proj (p : Project)
  | featWithProj (project : Project) (feature : Feature)
deriving DecidableEq, Repr

/-- `consolidate.py::get_project_name`. -/
def ProjectOrFeature.get_project_name : ProjectOrFeature → ProjectName
  | .proj p => p.name
  | .featWithProj p _ => p.name

/-- The underlying project (used by the env-var pass to resolve placeholders). -/
def ProjectOrFeature.projectOf : ProjectOrFeature → Project
  | .proj p => p
  | .featWithProj p _ => p

/-- The target table of a project or of a feature
(`Project.target` / `FeatureWithProject.target`). -/
def ProjectOrFeature.targetOf : ProjectOrFeature → List (String × Aspect)
  | .proj p => p.target
  | .featWithProj _ f => f.target

/-- `consolidate.py::ConsolidatedAspect`. -/
structure ConsolidatedAspect where
  dependencies : List (String × MergedSpec)
  pypi_dependencies : List (String × MergedSpec)
  env_vars : List (String × MergedEnvVarValue)
deriving DecidableEq, Repr

/-- The `update_specs` closure of `_consolidate_aspects` (`consolidate.py`):
fold a stream of named specs into the growing dict; a name already present
merges via `MergedSpec.add`, a fresh name seeds itself from the accumulated
`constraints` entry (when one exists) before being stored. -/
def update_specs (constraints : List (String × MergedSpec)) (project_name : ProjectName)
    (dependencies_dict : List (String × MergedSpec)) (specs : List (String × Spec)) :
    Except Err (List (String × MergedSpec)) :=
  specs.foldlM (fun d ns =>
    match alookup d ns.1 with
    | some merged_spec => do
        let m ← merged_spec.add ns.1 [project_name] ns.2
        pure (aset d ns.1 m)
    | none => do
        let base : MergedSpec := ⟨[project_name], ns.2⟩
        let m ← match alookup constraints ns.1 with
          | some constraint => base.add ns.1 constraint.sources constraint.spec
          | none => pure base
        pure (aset d ns.1 m)) dependencies_dict

/-- `_consolidate_aspects` (`consolidate.py`): first fold all eligible
constraints, then dependencies and pypi-dependencies (seeding fresh names from
the constraints), then env-vars (resolving placeholders before merging), each
pass iterating the aspects upstream-to-downstream and consulting the starting
project's inheritance policy. -/
def consolidate_aspects (ws : Workspace) (aspects : List (ProjectOrFeature × Aspect)) :
    Except Err ConsolidatedAspect := do
  let starting_project := ws.starting_project
  let inh := starting_project.inherit
  let constraints ← aspects.foldlM (fun cs pa =>
    let project_name := pa.1.get_project_name
    if inh.use_dependencies project_name starting_project
        || inh.use_pypi_dependencies project_name starting_project then
      update_specs cs project_name cs (pa.2.constraints.map (fun nv => (nv.1, Spec.normalized nv.2)))
    else
      pure cs) []
  let dp ← aspects.foldlM
    (fun (dp : List (String × MergedSpec) × List (String × MergedSpec)) pa => do
      let project_name := pa.1.get_project_name
      let deps ← if inh.use_dependencies project_name starting_project then
          update_specs constraints project_name dp.1
            (pa.2.dependencies.map (fun nv => (nv.1, Spec.normalized nv.2)))
        else pure dp.1
      let pypi ← if inh.use_pypi_dependencies project_name starting_project then
          update_specs constraints project_name dp.2
            (pa.2.pypi_dependencies.map (fun nv => (nv.1, Spec.normalized nv.2)))
        else pure dp.2
      pure (deps, pypi))
    (([], []) : List (String × MergedSpec) × List (String × MergedSpec))
  let env ← aspects.foldlM (fun (ev : List (String × MergedEnvVarValue)) pa => do
    let project_name := pa.1.get_project_name
    if inh.use_env_vars project_name starting_project then
      pa.2.env_vars.foldlM (fun ev nv => do
        let evaluated ← ResolvedEnvVar.resolve pa.1.projectOf ws nv.2
        let merged : MergedEnvVarValue := ⟨[project_name], evaluated⟩
        match alookup ev nv.1 with
        | some existing => do
            let m ← existing.merge merged
            pure (aset ev nv.1 m)
        | none => pure (aset ev nv.1 merged)) ev
    else pure ev) []
  pure ⟨dp.1, dp.2, env⟩

/-- Modelled from the spec: `target_matches_platforms` is imported by
`tests/test_consolidate.py` from `pixi_devenv.consolidate` but the function is
missing from the `consolidate.py` under `src/`; this definition follows spec
§4.5 word for word.  An empty platform list matches every target; otherwise an
exact match succeeds, and the case-insensitive selector aliases `win`/`windows`
(platforms starting with `win`), `linux`, `osx`/`macos`, and `unix` (platforms
NOT starting with `win`) are recognized. -/
def target_matches_platforms (target_name : String) (platforms : List String) : Bool :=
  platforms.isEmpty ||
  platforms.any (fun platform =>
    let t := target_name.toList.map Char.toLower
    if t = "win".toList || t = "windows".toList then
      "win".toList.isPrefixOf platform.toList
    else if t = "linux".toList then
      "linux".toList.isPrefixOf platform.toList
    else if t = "osx".toList || t = "macos".toList then
      "osx".toList.isPrefixOf platform.toList
    else if t = "unix".toList then
      !"win".toList.isPrefixOf platform.toList
    else
      platform = target_name)

/-- `defaultdict(list)` append used by `_consolidate_target` /
`_consolidate_feature`: record a further declarer of the given key. -/
def addMulti {α : Type} (l : List (String × List α)) (k : String) (v : α) :
    List (String × List α) :=
  match alookup l k with
  | some vs => aset l k (vs ++ [v])
  | none => l ++ [(k, [v])]

/-- The `all_targets` accumulation of `_consolidate_target`: the union of all
target names declared by the given projects, in first-seen order, each with the
projects declaring it.  Modelled from the spec: names failing
`target_matches_platforms` against the relevant platform set are dropped (spec
§4.6 step 2 and §4.5; this filter is exercised by
`tests/test_consolidate.py::test_target_platform_filtering` but absent from the
`consolidate.py` under `src/`). -/
def collect_targets (platforms : List String) (projects : List ProjectOrFeature) :
    List (String × List ProjectOrFeature) :=
  projects.foldl (fun acc pof =>
    pof.targetOf.foldl (fun acc2 ta =>
      if target_matches_platforms ta.1 platforms then addMulti acc2 ta.1 pof else acc2) acc) []

/-- `_consolidate_target` (`consolidate.py`), with the spec-modelled platform
filter of `collect_targets`: consolidate, per surviving target name, the
aspects of the projects declaring it. -/
def consolidate_target (ws : Workspace) (platforms : List String)
    (projects : List ProjectOrFeature) : Except Err (List (String × ConsolidatedAspect)) :=
  (collect_targets platforms projects).foldlM (fun acc tp => do
    let aspect ← consolidate_aspects ws
      (tp.2.map (fun pof => (pof, (alookup pof.targetOf tp.1).getD {})))
    pure (acc ++ [(tp.1, aspect)])) []

/-- `consolidate.py::ConsolidatedFeature`. -/
structure ConsolidatedFeature where
  dependencies : List (String × MergedSpec)
  pypi_dependencies : List (String × MergedSpec)
  env_vars : List (String × MergedEnvVarValue)
  target : List (String × ConsolidatedAspect)
deriving DecidableEq, Repr

/-- `ConsolidatedFeature.is_empty` (`consolidate.py`). -/
def ConsolidatedFeature.is_empty (f : ConsolidatedFeature) : Bool :=
  f.dependencies.isEmpty && f.pypi_dependencies.isEmpty
    && f.env_vars.isEmpty && f.target.isEmpty

instance : Inhabited Feature := ⟨{}⟩

/-- The `all_features` accumulation of `_consolidate_feature`: feature names in
first-seen order with the projects declaring them. -/
def collect_features (projects : List Project) : List (String × List Project) :=
  projects.foldl (fun acc p =>
    p.feature.foldl (fun acc2 fn => addMulti acc2 fn.1 p) acc) []

/-- `_consolidate_feature` (`consolidate.py`): for every declared feature name,
consolidate the feature aspects and nested targets of the projects whose
contribution `Inheritance.use_feature` accepts; entirely empty features are
omitted.  The `platforms` argument feeds the spec-modelled target filter. -/
def consolidate_feature (ws : Workspace) (platforms : List String) :
    Except Err (List (String × ConsolidatedFeature)) :=
  (collect_features ws.iter_downstream).foldlM (fun result fp => do
    let starting_project := ws.starting_project
    let inh := starting_project.inherit
    let contributing := fp.2.filter (fun p => inh.use_feature fp.1 p.name starting_project)
    let aspects_and_projects := contributing.map (fun p =>
      (ProjectOrFeature.proj p, ((alookup p.feature fp.1).getD {}).get_aspect))
    let features_with_projects := contributing.map (fun p =>
      ProjectOrFeature.featWithProj p ((alookup p.feature fp.1).getD {}))
    let aspect ← consolidate_aspects ws aspects_and_projects
    let target ← consolidate_target ws platforms features_with_projects
    let cf : ConsolidatedFeature :=
      ⟨aspect.dependencies, aspect.pypi_dependencies, aspect.env_vars, target⟩
    if cf.is_empty then pure result else pure (result ++ [(fp.1, cf)])) []

/-- `consolidate.py::ConsolidatedProject`: the final consolidated result. -/
structure ConsolidatedProject where
  name : String
  channels : List String := []
  platforms : List String := []
  dependencies : List (String × MergedSpec) := []
  pypi_dependencies : List (String × MergedSpec) := []
  env_vars : List (String × MergedEnvVarValue) := []
  target : List (String × ConsolidatedAspect) := []
  feature : List (String × ConsolidatedFeature) := []
deriving DecidableEq, Repr

/-- The channel/platform resolution loop of `consolidate_devenv`: iterating
upstream-to-downstream, the last project with a non-empty list wins. -/
def lastNonEmpty (xss : List (List String)) : List String :=
  xss.foldl (fun acc xs => if xs.isEmpty then acc else xs) []

/-- `consolidate_devenv` (`consolidate.py`): consolidate root aspects, targets
and features of the whole workspace, and resolve channels/platforms to the
most-downstream non-empty declaration.  The resolved platform list is handed to
the (spec-modelled) target filter of `consolidate_target` /
`consolidate_feature`. -/
def consolidate_devenv (ws : Workspace) : Except Err ConsolidatedProject := do
  let root_aspect ← consolidate_aspects ws
    (ws.iter_downstream.map (fun p => (ProjectOrFeature.proj p, p.get_root_aspect)))
  let channels := lastNonEmpty (ws.iter_downstream.map (fun p => p.channels))
  let platforms := lastNonEmpty (ws.iter_downstream.map (fun p => p.platforms))
  let consolidated_target ← consolidate_target ws platforms
    (ws.iter_downstream.map ProjectOrFeature.proj)
  let consolidated_feature ← consolidate_feature ws platforms
  pure { name := ws.starting_project.name
         channels := channels
         platforms := platforms
         dependencies := root_aspect.dependencies
         pypi_dependencies := root_aspect.pypi_dependencies
         env_vars := root_aspect.env_vars
         target := consolidated_target
         feature := consolidated_feature }

/-- Errors of workspace construction: `missingProject` models the failed file
load of an upstream reference, `cycle` the `DevEnvError` raised on
`graphlib.CycleError` (carrying the names on the offending cycle), and
`outOfFuel` is an artifact of the fuel-based recursion that provably never
occurs for the fuel `from_starting_file` supplies. -/
inductive BuildErr : Type
  | missingProject (name : ProjectName)
  | cycle (members : List ProjectName)
  | outOfFuel : BuildErr
deriving DecidableEq, Repr

/-- The direct predecessors (upstream projects) of a node in the adjacency
map handed to `graphlib.TopologicalSorter`. -/
def preds (g : List (ProjectName × List ProjectName)) (n : ProjectName) : List ProjectName :=
  (alookup g n).getD []

/-- One round of `graphlib`'s Kahn-style processing: the not-yet-emitted nodes
whose predecessors have all been emitted, in adjacency-map order. -/
def kahnReady (g : List (ProjectName × List ProjectName)) (done : List ProjectName) :
    List ProjectName :=
  (g.filter (fun kv => !(kv.1 ∈ done : Bool) && kv.2.all (fun p => p ∈ done))).map (fun kv => kv.1)

/-- Iterate `kahnReady` rounds, stopping when no node is ready.  Each
productive round emits at least one node, so `g.length` rounds always reach the
fixpoint. -/
def kahnRun (g : List (ProjectName × List ProjectName)) :
    Nat → List ProjectName → List ProjectName
  | 0, done => done
  | fuel + 1, done =>
    if (kahnReady g done).isEmpty then done
    else kahnRun g fuel (done ++ kahnReady g done)

/-- Follow, from `cur`, the first predecessor still in `remaining`, until a
node repeats; the segment from its first occurrence is a cycle.  Models the
cycle reported by `graphlib.CycleError`. -/
def cycleWalk (g : List (ProjectName × List ProjectName)) (remaining : List ProjectName) :
    Nat → List ProjectName → ProjectName → List ProjectName
  | 0, path, _ => path
  | fuel + 1, path, cur =>
    if cur ∈ path then
      path.dropWhile (fun x => x ≠ cur)
    else
      match (preds g cur).find? (fun p => p ∈ remaining) with
      | none => path ++ [cur]
      | some nxt => cycleWalk g remaining fuel (path ++ [cur]) nxt

/-- Extract a cycle out of the nodes a stuck Kahn run could not emit. -/
def findCycle (g : List (ProjectName × List ProjectName)) (remaining : List ProjectName) :
    List ProjectName :=
  match remaining with
  | [] => []
  | r :: _ => cycleWalk g remaining (remaining.length + 1) [] r

/-- Models `graphlib.TopologicalSorter(graph).static_order()` on the adjacency
maps the traversal builds (where every edge target is also a key): the
upstream-to-downstream order on success, the members of an offending cycle on
failure. -/
def topoSort (g : List (ProjectName × List ProjectName)) :
    Except (List ProjectName) (List ProjectName) :=
  if (g.map (fun kv => kv.1)).all (fun k => k ∈ kahnRun g g.length []) then
    .ok (kahnRun g g.length [])
  else
    .error (findCycle g ((g.map (fun kv => kv.1)).filter
      (fun k => !(k ∈ kahnRun g g.length [] : Bool))))

/-- The stack-based traversal of `Workspace.from_starting_file`: pop a project
name, skip it when already visited, otherwise load it from `table` (the file
system, keyed by project name — loading and path resolution are the excluded
collaborator), record its node and upstream edges, and push its upstream
references so that the most recently declared is processed first (Python
appends them in order and pops from the end). -/
def buildLoop (table : List (ProjectName × Project)) :
    Nat → List ProjectName → List (ProjectName × Project) →
    List (ProjectName × List ProjectName) →
    Except BuildErr (List (ProjectName × Project) × List (ProjectName × List ProjectName))
  | _, [], projects, graph => .ok (projects, graph)
  | 0, _ :: _, _, _ => .error .outOfFuel
  | fuel + 1, n :: rest, projects, graph =>
    if (alookup projects n).isSome then
      buildLoop table fuel rest projects graph
    else
      match alookup table n with
      | none => .error (.missingProject n)
      | some p =>
        buildLoop table fuel (p.upstream.reverse ++ rest)
          (projects ++ [(n, p)]) (graph ++ [(n, p.upstream)])

/-- Fuel sufficient for `buildLoop`: one pop for the starting project plus one
for every upstream reference declared anywhere in the table. -/
def buildFuel (table : List (ProjectName × Project)) : Nat :=
  (table.map (fun kv => kv.2.upstream.length)).sum + 1

/-- The traversal part of `Workspace.from_starting_file`: the visited projects
and the adjacency map, both in visit order. -/
def buildGraph (table : List (ProjectName × Project)) (start : ProjectName) :
    Except BuildErr (List (ProjectName × Project) × List (ProjectName × List ProjectName)) :=
  buildLoop table (buildFuel table) [start] [] []

/-- `Workspace.from_starting_file` (`workspace.py`): traverse the upstream
graph from the starting project, then compute the upstream-to-downstream
topological order, failing with the offending cycle when the graph is not a
DAG. -/
def from_starting_file (table : List (ProjectName × Project)) (start : ProjectName) :
    Except BuildErr Workspace :=
  match alookup table start with
  | none => .error (.missingProject start)
  | some starting_project =>
    match buildGraph table start with
    | .error e => .error e
    | .ok (projects, graph) =>
      match topoSort graph with
      | .error members => .error (.cycle members)
      | .ok order => .ok ⟨starting_project, projects, graph, order⟩

/-! ## Theorems -/

/-- C2.  The code appends the newer contributor's list items AFTER the older
contributor's items (`self.var.value + other.var.value` with `self` the older
merged value), contradicting the claim (and the class's own docstring, which
promises the downstream/newer items first); the sources tuple is
older-then-newer as claimed.  Shown at the concrete merge of older `("OLD",)`
from `upstream` with newer `("NEW",)` from `downstream`. -/
theorem c2_merged_env_var_list_order :
    MergedEnvVarValue.merge ⟨["upstream"], ⟨.list ["OLD"]⟩⟩ ⟨["downstream"], ⟨.list ["NEW"]⟩⟩
      = .ok ⟨["upstream", "downstream"], ⟨.list ["OLD", "NEW"]⟩⟩
    ∧ (EnvVarValue.list ["OLD", "NEW"] ≠ EnvVarValue.list ["NEW", "OLD"]) := by
  exact ⟨rfl, by decide⟩

/-- `MergedSpec.add` with its `let` bindings inlined: the two conflict checks
guard the record the source computes (sources concatenate, versions merge with
wildcard collapse, build and channel keep the first non-empty value). -/
theorem MergedSpec.add_eq (m : MergedSpec) (n : String) (src : List ProjectName) (s : Spec) :
    m.add n src s =
      if m.spec.build ≠ "" && s.build ≠ "" && m.spec.build ≠ s.build then
        .error (.conflictingBuilds n m.sources src m.spec.build s.build)
      else if m.spec.channel ≠ "" && s.channel ≠ "" && m.spec.channel ≠ s.channel then
        .error (.conflictingChannels n m.sources src m.spec.channel s.channel)
      else
        .ok ⟨m.sources ++ src,
          ⟨if m.spec.version ≠ "*" && s.version ≠ "*" then m.spec.version ++ "," ++ s.version
            else if m.spec.version ≠ "*" then m.spec.version else s.version,
           if m.spec.build ≠ "" then m.spec.build else s.build,
           if m.spec.channel ≠ "" then m.spec.channel else s.channel⟩⟩ := rfl

/-- A successful `MergedSpec.add` is exactly the record the source computes. -/
theorem MergedSpec.add_ok_eq (m : MergedSpec) (n : String) (src : List ProjectName)
    (s : Spec) (r : MergedSpec) (h : m.add n src s = .ok r) :
    r = ⟨m.sources ++ src,
      ⟨if m.spec.version ≠ "*" && s.version ≠ "*" then m.spec.version ++ "," ++ s.version
        else if m.spec.version ≠ "*" then m.spec.version else s.version,
       if m.spec.build ≠ "" then m.spec.build else s.build,
       if m.spec.channel ≠ "" then m.spec.channel else s.channel⟩⟩ := by
  rw [MergedSpec.add_eq] at h
  split at h
  · simp at h
  · split at h
    · simp at h
    · injection h with h
      exact h.symm

/-- C4.  Version merge of `MergedSpec.add`: two wildcards stay wildcard, one
wildcard yields the other constraint unchanged, two non-wildcards concatenate
as `"{current},{new}"` with the already-merged constraint first. -/
theorem c4_version_merge (m : MergedSpec) (n : String) (src : List ProjectName)
    (s : Spec) (r : MergedSpec) (h : m.add n src s = .ok r) :
    (m.spec.version = "*" → s.version = "*" → r.spec.version = "*")
    ∧ (m.spec.version = "*" → s.version ≠ "*" → r.spec.version = s.version)
    ∧ (m.spec.version ≠ "*" → s.version = "*" → r.spec.version = m.spec.version)
    ∧ (m.spec.version ≠ "*" → s.version ≠ "*" →
        r.spec.version = m.spec.version ++ "," ++ s.version) := by
  have hr := MergedSpec.add_ok_eq m n src s r h
  subst hr
  refine ⟨?_, ?_, ?_, ?_⟩ <;> intro h1 h2 <;> simp [h1, h2]

/-- C4 witness: merging `">=1"` with `">=2"` concatenates, instantiating the
theorem at a concrete successful merge. -/
theorem c4_version_merge_witness :
    (MergedSpec.mk ["a"] ⟨">=1", "", ""⟩).add "lib" ["b"] ⟨">=2", "", ""⟩
        = .ok ⟨["a", "b"], ⟨">=1,>=2", "", ""⟩⟩
    ∧ (MergedSpec.mk ["a"] ⟨">=1", "", ""⟩ : MergedSpec).spec.version ≠ "*"
    ∧ (⟨">=1,>=2", "", ""⟩ : Spec).version = ">=1" ++ "," ++ ">=2" := by
  refine ⟨by decide, by decide, ?_⟩
  exact (c4_version_merge (MergedSpec.mk ["a"] ⟨">=1", "", ""⟩) "lib" ["b"] ⟨">=2", "", ""⟩
    ⟨["a", "b"], ⟨">=1,>=2", "", ""⟩⟩ (by decide)).2.2.2 (by decide) (by decide)

/-- C5.  `MergedSpec.add` fails exactly when the build field, or independently
the channel field, has two non-empty unequal values; on success each field is
the current non-empty value, else the new one. -/
theorem c5_build_channel_conflict (m : MergedSpec) (n : String) (src : List ProjectName)
    (s : Spec) :
    ((∃ e, m.add n src s = .error e) ↔
      ((m.spec.build ≠ "" ∧ s.build ≠ "" ∧ m.spec.build ≠ s.build)
        ∨ (m.spec.channel ≠ "" ∧ s.channel ≠ "" ∧ m.spec.channel ≠ s.channel)))
    ∧ (∀ r, m.add n src s = .ok r →
        r.spec.build = (if m.spec.build ≠ "" then m.spec.build else s.build)
        ∧ r.spec.channel = (if m.spec.channel ≠ "" then m.spec.channel else s.channel)) := by
  constructor
  · constructor
    · rintro ⟨e, he⟩
      rw [MergedSpec.add_eq] at he
      split at he
      next hb =>
        simp only [Bool.and_eq_true, decide_eq_true_eq, and_assoc] at hb
        exact Or.inl hb
      next hb =>
        split at he
        next hc =>
          simp only [Bool.and_eq_true, decide_eq_true_eq, and_assoc] at hc
          exact Or.inr hc
        next hc => simp at he
    · intro hconf
      rw [MergedSpec.add_eq]
      split
      · exact ⟨_, rfl⟩
      next hb =>
        split
        · exact ⟨_, rfl⟩
        next hc =>
          exfalso
          simp only [Bool.and_eq_true, decide_eq_true_eq, and_assoc] at hb hc
          rcases hconf with h | h
          · exact hb h
          · exact hc h
  · intro r hr
    have heq := MergedSpec.add_ok_eq m n src s r hr
    subst heq
    exact ⟨rfl, rfl⟩

/-- C5 witness: equal builds merge keeping `"x"`, unequal builds conflict —
both read off the theorem at concrete specs. -/
theorem c5_build_channel_conflict_witness :
    (∃ e, (MergedSpec.mk ["a"] ⟨"1", "x", ""⟩).add "lib" ["b"] ⟨"2", "y", ""⟩ = .error e)
    ∧ (∀ r, (MergedSpec.mk ["a"] ⟨"1", "x", ""⟩).add "lib" ["b"] ⟨"2", "x", ""⟩ = .ok r →
        r.spec.build = "x") := by
  constructor
  · exact (c5_build_channel_conflict (MergedSpec.mk ["a"] ⟨"1", "x", ""⟩) "lib" ["b"]
      ⟨"2", "y", ""⟩).1.mpr (Or.inl ⟨by decide, by decide, by decide⟩)
  · intro r hr
    have := ((c5_build_channel_conflict (MergedSpec.mk ["a"] ⟨"1", "x", ""⟩) "lib" ["b"]
      ⟨"2", "x", ""⟩).2 r hr).1
    simpa using this

/-- C6.  Every inheritance evaluation — the raw rule evaluator and the
dependencies / pypi-dependencies / env-vars entry points — returns `true` for
the starting project's own name, whatever the policy value is. -/
theorem c6_starting_project_always_included (inh : Inheritance) (rule : InheritRule)
    (sp : Project) :
    Inheritance.evaluate_for_project rule sp.name sp = true
    ∧ inh.use_dependencies sp.name sp = true
    ∧ inh.use_pypi_dependencies sp.name sp = true
    ∧ inh.use_env_vars sp.name sp = true := by
  refine ⟨?_, ?_, ?_, ?_⟩ <;>
    simp [Inheritance.evaluate_for_project, Inheritance.use_dependencies,
      Inheritance.use_pypi_dependencies, Inheritance.use_env_vars]

/-- C10.  A feature the starting project itself declares is inherited from
every contributor regardless of any `inherit.features` entry; when the feature
is neither declared by the starting project nor present in the policy map, no
project's contribution is inherited. -/
theorem c10_feature_inheritance (inh : Inheritance) (F : String) (sp : Project) :
    ((alookup sp.feature F).isSome = true →
      ∀ pn : ProjectName, inh.use_feature F pn sp = true)
    ∧ (alookup sp.feature F = none → alookup inh.features F = none →
      ∀ pn : ProjectName, inh.use_feature F pn sp = false) := by
  constructor
  · intro hdecl pn
    simp [Inheritance.use_feature, hdecl]
  · intro hdecl hpol pn
    simp [Inheritance.use_feature, hdecl, hpol]

/-- C10 witness: with feature `py310` declared by the starting project the
evaluator accepts contributor `other` despite an exclude-list naming it; the
undeclared, unlisted feature `nope` is rejected. -/
theorem c10_feature_inheritance_witness :
    Inheritance.use_feature
        { features := [("py310", .excluded ["other"])] } "py310" "other"
        { name := "start", feature := [("py310", {})] } = true
    ∧ Inheritance.use_feature
        { features := [("py310", .excluded ["other"])] } "nope" "other"
        { name := "start", feature := [("py310", {})] } = false := by
  constructor
  · exact (c10_feature_inheritance { features := [("py310", .excluded ["other"])] } "py310"
      { name := "start", feature := [("py310", {})] }).1 (by decide) "other"
  · exact (c10_feature_inheritance { features := [("py310", .excluded ["other"])] } "nope"
      { name := "start", feature := [("py310", {})] }).2 (by decide) (by decide) "other"

/-- A string containing no brace characters: `str.format` passes it through
verbatim (this is where `$`-style identifiers for the later rendering stage
live). -/
def noBraces (s : String) : Prop :=
  '\x7b' ∉ s.toList ∧ '\x7d' ∉ s.toList

instance (s : String) : Decidable (noBraces s) := by
  unfold noBraces; infer_instance

theorem String.mk_toList_eq (v : String) : String.mk v.toList = v := by
  cases v; rfl

/-- `pyFormatAux` passes a brace-free character list through unchanged. -/
theorem pyFormatAux_noBraces (val : String) (fuel : Nat) (l : List Char)
    (hb : '\x7b' ∉ l) (hc : '\x7d' ∉ l) (hlen : l.length ≤ fuel) :
    pyFormatAux val fuel l = .ok l := by
  induction fuel generalizing l with
  | zero =>
    cases l with
    | nil => rfl
    | cons c rest => simp at hlen
  | succ fuel ih =>
    cases l with
    | nil => rfl
    | cons c rest =>
      have hcne : ¬(c = '\x7d') := fun h => hc (h ▸ List.mem_cons_self c rest)
      have hbne : ¬(c = '\x7b') := fun h => hb (h ▸ List.mem_cons_self c rest)
      have hrb : '\x7b' ∉ rest := fun h => hb (List.mem_cons_of_mem c h)
      have hrc : '\x7d' ∉ rest := fun h => hc (List.mem_cons_of_mem c h)
      have hrlen : rest.length ≤ fuel := by
        simpa using Nat.le_of_succ_le_succ hlen
      simp only [pyFormatAux, if_neg hcne, if_neg hbne, ih rest hrb hrc hrlen, Except.map]

/-- `str.format` leaves a brace-free string unchanged. -/
theorem pyFormat_noBraces (val s : String) (h : noBraces s) : pyFormat val s = .ok s := by
  unfold pyFormat
  rw [pyFormatAux_noBraces val _ s.toList h.1 h.2 (Nat.le_succ _)]
  simp [Except.map, String.mk_toList_eq]

/-- `str.format` substitutes the mapping value for the recognized field. -/
theorem pyFormat_field (val : String) : pyFormat val "{devenv_project_dir}" = .ok val := by
  show Except.map String.mk (pyFormatAux val 21 ("{devenv_project_dir}".toList)) = .ok val
  have : pyFormatAux val 21 ("{devenv_project_dir}".toList) = .ok (val.toList ++ []) := by
    rfl
  rw [this]
  simp [Except.map, String.mk_toList_eq]

/-- C9 counterexample.  At the starting project itself, resolving the scalar
env-var value `"{foo}"` — placeholder syntax whose field is not the recognized
`devenv_project_dir` — does NOT leave the component unchanged: it fails with
the (modelled) `KeyError` that CPython's `str.format` raises. -/
theorem c9_brace_field_causes_failure :
    ResolvedEnvVar.resolve { name := "a", directory := ["tmp", "a"] }
        ⟨{ name := "a", directory := ["tmp", "a"] },
          [("a", { name := "a", directory := ["tmp", "a"] })], [("a", [])], ["a"]⟩
        (.scalar "{foo}")
      = .error (.keyError "foo") := by
  rfl

/-- C9 (amended).  When the contributing project's directory is under the
starting project's (`relativeSegments` succeeds with `rel`),
`ResolvedEnvVar.resolve` substitutes the recognized placeholder — the relative
directory rooted at `${PIXI_PROJECT_ROOT}` — into every string component of a
scalar or list value, and components with no brace-delimited syntax (such as
`$`-prefixed identifiers for the later rendering stage) are left unchanged;
only brace-delimited fields other than `devenv_project_dir` fail (see the
counterexample). -/
theorem c9_resolve_substitutes (p : Project) (ws : Workspace) (rel : List String)
    (hrel : relativeSegments ws.starting_project.directory p.directory = some rel) :
    (∀ s, noBraces s → ResolvedEnvVar.resolve p ws (.scalar s) = .ok ⟨.scalar s⟩)
    ∧ ResolvedEnvVar.resolve p ws (.scalar "{devenv_project_dir}")
        = .ok ⟨.scalar (projectRootPosix rel)⟩
    ∧ (∀ xs, (∀ s ∈ xs, noBraces s) →
        ResolvedEnvVar.resolve p ws (.list xs) = .ok ⟨.list xs⟩)
    ∧ (∀ s₁ s₂, noBraces s₁ → noBraces s₂ →
        ResolvedEnvVar.resolve p ws (.list [s₁, "{devenv_project_dir}", s₂])
          = .ok ⟨.list [s₁, projectRootPosix rel, s₂]⟩) := by
  refine ⟨?_, ?_, ?_, ?_⟩
  · intro s hs
    simp [ResolvedEnvVar.resolve, hrel, pyFormat_noBraces _ s hs, Except.map]
  · simp [ResolvedEnvVar.resolve, hrel, pyFormat_field, Except.map]
  · intro xs hxs
    have hmap : exceptMapList (pyFormat (projectRootPosix rel)) xs = .ok xs := by
      induction xs with
      | nil => rfl
      | cons x rest ih =>
        have hx := pyFormat_noBraces (projectRootPosix rel) x (hxs x (List.mem_cons_self x rest))
        have hrest := ih (fun s hs => hxs s (List.mem_cons_of_mem x hs))
        simp [exceptMapList, hx, hrest, Bind.bind, Except.bind, Pure.pure, Except.pure]
    simp [ResolvedEnvVar.resolve, hrel, hmap, Except.map]
  · intro s₁ s₂ h₁ h₂
    have hmap : exceptMapList (pyFormat (projectRootPosix rel)) [s₁, "{devenv_project_dir}", s₂]
        = .ok [s₁, projectRootPosix rel, s₂] := by
      simp [exceptMapList, pyFormat_noBraces _ s₁ h₁, pyFormat_noBraces _ s₂ h₂,
        pyFormat_field, Bind.bind, Except.bind, Pure.pure, Except.pure]
    simp [ResolvedEnvVar.resolve, hrel, hmap, Except.map]

/-- C9 witness: for a project in subdirectory `sub` of the starting project,
`$FOO/lib` passes through unchanged and `{devenv_project_dir}` becomes
`${PIXI_PROJECT_ROOT}/sub`, read off the amended theorem. -/
theorem c9_resolve_substitutes_witness :
    ResolvedEnvVar.resolve { name := "sub", directory := ["ws", "sub"] }
        ⟨{ name := "start", directory := ["ws"] }, [], [], []⟩ (.scalar "$FOO/lib")
      = .ok ⟨.scalar "$FOO/lib"⟩
    ∧ ResolvedEnvVar.resolve { name := "sub", directory := ["ws", "sub"] }
        ⟨{ name := "start", directory := ["ws"] }, [], [], []⟩ (.scalar "{devenv_project_dir}")
      = .ok ⟨.scalar (projectRootPosix ["sub"])⟩ := by
  constructor
  · exact (c9_resolve_substitutes { name := "sub", directory := ["ws", "sub"] }
      ⟨{ name := "start", directory := ["ws"] }, [], [], []⟩ ["sub"] (by decide)).1
      "$FOO/lib" (by decide)
  · exact (c9_resolve_substitutes { name := "sub", directory := ["ws", "sub"] }
      ⟨{ name := "start", directory := ["ws"] }, [], [], []⟩ ["sub"] (by decide)).2.1

theorem akeys_append {α : Type} (l₁ l₂ : List (String × α)) :
    akeys (l₁ ++ l₂) = akeys l₁ ++ akeys l₂ := by
  unfold akeys; simp

theorem mem_akeys_aset {α : Type} (l : List (String × α)) (k : String) (v : α) :
    ∀ k' ∈ akeys (aset l k v), k' ∈ akeys l ∨ k' = k := by
  intro k' hk'
  unfold aset at hk'
  split at hk'
  · unfold akeys at hk' ⊢
    simp only [List.map_map, List.mem_map, Function.comp] at hk'
    obtain ⟨kv, hkv, heq⟩ := hk'
    by_cases h : kv.1 = k
    · right; rw [← heq]; simp [h]
    · left
      rw [← heq]
      simp only [if_neg h]
      exact List.mem_map_of_mem _ hkv
  · rw [akeys_append] at hk'
    rcases List.mem_append.mp hk' with h | h
    · exact Or.inl h
    · right; simpa [akeys] using h

theorem mem_akeys_addMulti {α : Type} (l : List (String × List α)) (k : String) (v : α) :
    ∀ k' ∈ akeys (addMulti l k v), k' ∈ akeys l ∨ k' = k := by
  intro k' hk'
  unfold addMulti at hk'
  split at hk'
  · exact mem_akeys_aset l k _ k' hk'
  · rw [akeys_append] at hk'
    rcases List.mem_append.mp hk' with h | h
    · exact Or.inl h
    · right; simpa [akeys] using h

/-- The per-project inner fold of `collect_targets` only records target names
passing the platform filter. -/
theorem collect_targets_inner (platforms : List String) (pof : ProjectOrFeature) :
    ∀ (targets : List (String × Aspect)) (acc : List (String × List ProjectOrFeature)),
      (∀ k ∈ akeys acc, target_matches_platforms k platforms = true) →
      ∀ k ∈ akeys (targets.foldl (fun acc2 ta =>
          if target_matches_platforms ta.1 platforms then addMulti acc2 ta.1 pof else acc2) acc),
        target_matches_platforms k platforms = true := by
  intro targets
  induction targets with
  | nil => exact fun acc hacc => hacc
  | cons ta rest ih =>
    intro acc hacc
    rw [List.foldl_cons]
    apply ih
    intro k' hk'
    by_cases hm : target_matches_platforms ta.1 platforms = true
    · rw [if_pos hm] at hk'
      rcases mem_akeys_addMulti acc ta.1 pof k' hk' with h | h
      · exact hacc k' h
      · rwa [h]
    · rw [if_neg hm] at hk'
      exact hacc k' hk'

/-- Every target name collected by `collect_targets` passed the platform
filter. -/
theorem collect_targets_matches (platforms : List String) (projects : List ProjectOrFeature) :
    ∀ k ∈ akeys (collect_targets platforms projects),
      target_matches_platforms k platforms = true := by
  unfold collect_targets
  suffices aux : ∀ (ps : List ProjectOrFeature) (acc : List (String × List ProjectOrFeature)),
      (∀ k ∈ akeys acc, target_matches_platforms k platforms = true) →
      ∀ k ∈ akeys (ps.foldl (fun acc pof =>
        pof.targetOf.foldl (fun acc2 ta =>
          if target_matches_platforms ta.1 platforms then addMulti acc2 ta.1 pof else acc2) acc) acc),
      target_matches_platforms k platforms = true by
    exact fun k hk => aux projects [] (by simp [akeys]) k hk
  intro ps
  induction ps with
  | nil => exact fun acc hacc => hacc
  | cons p rest ih =>
    intro acc hacc
    rw [List.foldl_cons]
    exact ih _ (collect_targets_inner platforms p p.targetOf acc hacc)

/-- Keys of a `foldlM` accumulation whose step appends entries keyed by the
processed element. -/
theorem foldlM_append_keys {γ α : Type} (step : List (String × γ) → α → Except Err (List (String × γ)))
    (key : α → String)
    (hstep : ∀ acc x res', step acc x = .ok res' →
      ∀ k ∈ akeys res', k ∈ akeys acc ∨ k = key x) :
    ∀ (l : List α) (acc res : List (String × γ)), l.foldlM step acc = .ok res →
      ∀ k ∈ akeys res, k ∈ akeys acc ∨ k ∈ l.map key := by
  intro l
  induction l with
  | nil =>
    intro acc res h k hk
    rw [List.foldlM_nil] at h
    obtain rfl : acc = res := by simpa [pure, Except.pure] using h
    exact Or.inl hk
  | cons x xs ih =>
    intro acc res h k hk
    rw [List.foldlM_cons] at h
    cases hs : step acc x with
    | error e => rw [hs] at h; simp [Bind.bind, Except.bind] at h
    | ok acc' =>
      rw [hs] at h
      simp only [Bind.bind, Except.bind] at h
      rcases ih acc' res h k hk with h' | h'
      · rcases hstep acc x acc' hs k h' with h'' | h''
        · exact Or.inl h''
        · exact Or.inr (by simp [h''])
      · exact Or.inr (by simp only [List.map_cons]; exact List.mem_cons_of_mem _ h')

/-- Entries of a `foldlM` accumulation all satisfy `P` when the step only adds
entries satisfying `P`. -/
theorem foldlM_entry_inv {α β : Type} (P : β → Prop) (step : List β → α → Except Err (List β))
    (hstep : ∀ acc x res', step acc x = .ok res' → ∀ e ∈ res', e ∈ acc ∨ P e) :
    ∀ (l : List α) (acc res : List β), l.foldlM step acc = .ok res →
      (∀ e ∈ acc, P e) → ∀ e ∈ res, P e := by
  intro l
  induction l with
  | nil =>
    intro acc res h hacc e he
    rw [List.foldlM_nil] at h
    obtain rfl : acc = res := by simpa [pure, Except.pure] using h
    exact hacc e he
  | cons x xs ih =>
    intro acc res h hacc e he
    rw [List.foldlM_cons] at h
    cases hs : step acc x with
    | error er => rw [hs] at h; simp [Bind.bind, Except.bind] at h
    | ok acc' =>
      rw [hs] at h
      simp only [Bind.bind, Except.bind] at h
      refine ih acc' res h ?_ e he
      intro e' he'
      rcases hstep acc x acc' hs e' he' with h' | h'
      · exact hacc e' h'
      · exact h'

/-- Every key of a successful `consolidate_target` result was collected (and
hence platform-filtered) by `collect_targets`. -/
theorem consolidate_target_keys (ws : Workspace) (platforms : List String)
    (projects : List ProjectOrFeature) (res : List (String × ConsolidatedAspect))
    (h : consolidate_target ws platforms projects = .ok res) :
    ∀ k ∈ akeys res, target_matches_platforms k platforms = true := by
  unfold consolidate_target at h
  intro k hk
  have := foldlM_append_keys
    (fun acc tp => do
      let aspect ← consolidate_aspects ws
        (tp.2.map (fun pof => (pof, (alookup pof.targetOf tp.1).getD {})))
      pure (acc ++ [(tp.1, aspect)]))
    (fun tp => tp.1)
    (by
      intro acc x res' hs k' hk'
      dsimp only at hs
      cases hca : consolidate_aspects ws
          (x.2.map (fun pof => (pof, (alookup pof.targetOf x.1).getD {}))) with
      | error e => rw [hca] at hs; simp [Bind.bind, Except.bind] at hs
      | ok aspect =>
        rw [hca] at hs
        simp only [Bind.bind, Except.bind, pure, Except.pure] at hs
        injection hs with hs
        rw [← hs, akeys_append] at hk'
        rcases List.mem_append.mp hk' with h' | h'
        · exact Or.inl h'
        · right; simpa [akeys] using h')
    (collect_targets platforms projects) [] res h k hk
  rcases this with h' | h'
  · simp [akeys] at h'
  · have hcoll : k ∈ akeys (collect_targets platforms projects) := by
      simpa [akeys] using h'
    exact collect_targets_matches platforms projects k hcoll

/-- Destructuring a successful `consolidate_devenv`: the target map comes from
`consolidate_target` and the feature map from `consolidate_feature`, both
filtered against the very platform list stored in the result. -/
theorem consolidate_devenv_ok_parts (ws : Workspace) (r : ConsolidatedProject)
    (h : consolidate_devenv ws = .ok r) :
    consolidate_target ws r.platforms (ws.iter_downstream.map ProjectOrFeature.proj)
        = .ok r.target
    ∧ consolidate_feature ws r.platforms = .ok r.feature := by
  unfold consolidate_devenv at h
  cases h1 : consolidate_aspects ws
      (ws.iter_downstream.map (fun p => (ProjectOrFeature.proj p, p.get_root_aspect))) with
  | error e => rw [h1] at h; simp [Bind.bind, Except.bind] at h
  | ok ra =>
    rw [h1] at h
    simp only [Bind.bind, Except.bind] at h
    cases h2 : consolidate_target ws
        (lastNonEmpty (ws.iter_downstream.map (fun p => p.platforms)))
        (ws.iter_downstream.map ProjectOrFeature.proj) with
    | error e => rw [h2] at h; simp at h
    | ok ct =>
      rw [h2] at h
      simp only at h
      cases h3 : consolidate_feature ws
          (lastNonEmpty (ws.iter_downstream.map (fun p => p.platforms))) with
      | error e => rw [h3] at h; simp [pure, Except.pure] at h
      | ok cf =>
        rw [h3] at h
        simp only [pure, Except.pure] at h
        injection h with h
        rw [← h]
        exact ⟨h2, h3⟩

/-- Every feature of a successful `consolidate_feature` has a platform-filtered
nested target map. -/
theorem consolidate_feature_targets (ws : Workspace) (platforms : List String)
    (res : List (String × ConsolidatedFeature))
    (h : consolidate_feature ws platforms = .ok res) :
    ∀ e ∈ res, ∀ k ∈ akeys e.2.target, target_matches_platforms k platforms = true := by
  unfold consolidate_feature at h
  refine foldlM_entry_inv
    (fun e => ∀ k ∈ akeys e.2.target, target_matches_platforms k platforms = true)
    _ ?_ (collect_features ws.iter_downstream) [] res h (by simp)
  intro acc x res' hs e he
  dsimp only at hs
  cases hca : consolidate_aspects ws
      ((x.2.filter (fun p => ws.starting_project.inherit.use_feature x.1 p.name
        ws.starting_project)).map (fun p =>
          (ProjectOrFeature.proj p, ((alookup p.feature x.1).getD {}).get_aspect))) with
  | error er => rw [hca] at hs; simp [Bind.bind, Except.bind] at hs
  | ok aspect =>
    rw [hca] at hs
    simp only [Bind.bind, Except.bind] at hs
    cases hct : consolidate_target ws platforms
        ((x.2.filter (fun p => ws.starting_project.inherit.use_feature x.1 p.name
          ws.starting_project)).map (fun p =>
            ProjectOrFeature.featWithProj p ((alookup p.feature x.1).getD {}))) with
    | error er => rw [hct] at hs; simp at hs
    | ok ct =>
      rw [hct] at hs
      simp only at hs
      split at hs
      · simp only [pure, Except.pure] at hs
        injection hs with hs
        rw [← hs] at he
        exact Or.inl he
      · simp only [pure, Except.pure] at hs
        injection hs with hs
        rw [← hs] at he
        rcases List.mem_append.mp he with h' | h'
        · exact Or.inl h'
        · right
          have : e = (x.1, ⟨aspect.dependencies, aspect.pypi_dependencies,
              aspect.env_vars, ct⟩) := by simpa using h'
          rw [this]
          exact consolidate_target_keys ws platforms _ ct hct

/-- C1.  In every successful consolidation, each key of the result's target
map — and of every consolidated feature's nested target map — is compatible
with the result's resolved platform list under `target_matches_platforms`
(empty platform list matches everything; otherwise exact match or the
`win`/`windows`, `linux`, `osx`/`macos`, `unix` selector aliases). -/
theorem c1_targets_platform_filtered (ws : Workspace) (r : ConsolidatedProject)
    (h : consolidate_devenv ws = .ok r) :
    (∀ t ∈ akeys r.target, target_matches_platforms t r.platforms = true)
    ∧ (∀ e ∈ r.feature, ∀ t ∈ akeys e.2.target,
        target_matches_platforms t r.platforms = true) := by
  obtain ⟨ht, hf⟩ := consolidate_devenv_ok_parts ws r h
  exact ⟨consolidate_target_keys ws r.platforms _ r.target ht,
    consolidate_feature_targets ws r.platforms r.feature hf⟩

/-- The `win`-target aspect of the C1 witness workspace. -/
def winAspect : Aspect := { dependencies := [("pywin32", SpecOrStr.str "*")] }

/-- The `unix`-target aspect of the C1 witness workspace. -/
def unixAspect : Aspect := { dependencies := [("libx11", SpecOrStr.str "*")] }

/-- Witness workspace upstream project: declares platforms `linux-64`/`win-64`
and both a `win` and a `unix` target. -/
def c1Boot : Project :=
  { name := "bootstrap", platforms := ["linux-64", "win-64"],
    target := [("win", winAspect), ("unix", unixAspect)] }

/-- Witness workspace starting project: restricts the platforms to `win-64`. -/
def c1A : Project := { name := "a", platforms := ["win-64"], upstream := ["bootstrap"] }

/-- Witness workspace: `a` (win-64 only) downstream of `bootstrap`. -/
def c1Ws : Workspace :=
  ⟨c1A, [("bootstrap", c1Boot), ("a", c1A)], [("a", ["bootstrap"]), ("bootstrap", [])],
    ["bootstrap", "a"]⟩

/-- The expected consolidation of `c1Ws`. -/
def c1Expected : ConsolidatedProject :=
  { name := "a", platforms := ["win-64"],
    target := [("win", ⟨[("pywin32", ⟨["bootstrap"], ⟨"*", "", ""⟩⟩)], [], []⟩)] }

/-- C1 witness: consolidating `c1Ws` keeps the `win` target, drops the
incompatible `unix` target, and the theorem confirms the surviving key matches
the resolved platform list `["win-64"]`. -/
theorem c1_targets_platform_filtered_witness :
    ∃ r, consolidate_devenv c1Ws = .ok r
      ∧ "win" ∈ akeys r.target
      ∧ "unix" ∉ akeys r.target
      ∧ target_matches_platforms "win" r.platforms = true := by
  refine ⟨c1Expected, by decide, by decide, by decide, ?_⟩
  exact (c1_targets_platform_filtered c1Ws c1Expected (by decide)).1 "win" (by decide)

theorem except_bind_ok {ε α β : Type} (x : Except ε α) (f : α → Except ε β) (b : β) :
    (Bind.bind x f = Except.ok b) ↔ ∃ a, x = .ok a ∧ f a = .ok b := by
  cases x <;> simp [Bind.bind, Except.bind]

theorem map_fst_pairs {α β γ : Type} (l : List (α × β)) (g : α × β → γ) :
    (l.map (fun nv => (nv.1, g nv))).map Prod.fst = l.map Prod.fst := by
  induction l with
  | nil => rfl
  | cons a t ih => simp [ih]

/-- Every key of an `update_specs` result was already present or belongs to
the stream of specs folded in (constraints only decorate existing names). -/
theorem update_specs_keys (cs : List (String × MergedSpec)) (pn : ProjectName)
    (specs : List (String × Spec)) (d d' : List (String × MergedSpec))
    (h : update_specs cs pn d specs = .ok d') :
    ∀ k ∈ akeys d', k ∈ akeys d ∨ k ∈ specs.map Prod.fst := by
  unfold update_specs at h
  intro k hk
  refine foldlM_append_keys _ (fun ns => ns.1) ?_ specs d d' h k hk
  intro acc x res' hs k' hk'
  dsimp only at hs
  cases hl : alookup acc x.1 with
  | some merged_spec =>
    rw [hl] at hs
    obtain ⟨m, _, hres⟩ := (except_bind_ok _ _ _).mp hs
    obtain rfl : aset acc x.1 m = res' := by simpa [pure, Except.pure] using hres
    exact mem_akeys_aset acc x.1 m k' hk'
  | none =>
    rw [hl] at hs
    cases hc : alookup cs x.1 with
    | some constraint =>
      rw [hc] at hs
      obtain ⟨m, _, hres⟩ := (except_bind_ok _ _ _).mp hs
      obtain rfl : aset acc x.1 m = res' := by simpa [pure, Except.pure] using hres
      exact mem_akeys_aset acc x.1 m k' hk'
    | none =>
      rw [hc] at hs
      obtain ⟨m, _, hres⟩ := (except_bind_ok _ _ _).mp hs
      obtain rfl : aset acc x.1 m = res' := by simpa [pure, Except.pure] using hres
      exact mem_akeys_aset acc x.1 m k' hk'

/-- Key provenance through a `foldlM` over a pair of accumulating maps. -/
theorem foldlM_pair_keys {α : Type}
    (step : (List (String × MergedSpec) × List (String × MergedSpec)) → α →
      Except Err (List (String × MergedSpec) × List (String × MergedSpec)))
    (P Q : α → String → Prop)
    (hstep : ∀ acc x res', step acc x = .ok res' →
      (∀ k ∈ akeys res'.1, k ∈ akeys acc.1 ∨ P x k)
      ∧ (∀ k ∈ akeys res'.2, k ∈ akeys acc.2 ∨ Q x k)) :
    ∀ (l : List α) acc res, l.foldlM step acc = .ok res →
      (∀ k ∈ akeys res.1, k ∈ akeys acc.1 ∨ ∃ x ∈ l, P x k)
      ∧ (∀ k ∈ akeys res.2, k ∈ akeys acc.2 ∨ ∃ x ∈ l, Q x k) := by
  intro l
  induction l with
  | nil =>
    intro acc res h
    rw [List.foldlM_nil] at h
    obtain rfl : acc = res := by simpa [pure, Except.pure] using h
    exact ⟨fun k hk => Or.inl hk, fun k hk => Or.inl hk⟩
  | cons x xs ih =>
    intro acc res h
    rw [List.foldlM_cons] at h
    cases hs : step acc x with
    | error e => rw [hs] at h; simp [Bind.bind, Except.bind] at h
    | ok acc' =>
      rw [hs] at h
      simp only [Bind.bind, Except.bind] at h
      obtain ⟨ih1, ih2⟩ := ih acc' res h
      constructor
      · intro k hk
        rcases ih1 k hk with h' | ⟨y, hy, hP⟩
        · rcases (hstep acc x acc' hs).1 k h' with h'' | h''
          · exact Or.inl h''
          · exact Or.inr ⟨x, List.mem_cons_self x xs, h''⟩
        · exact Or.inr ⟨y, List.mem_cons_of_mem x hy, hP⟩
      · intro k hk
        rcases ih2 k hk with h' | ⟨y, hy, hQ⟩
        · rcases (hstep acc x acc' hs).2 k h' with h'' | h''
          · exact Or.inl h''
          · exact Or.inr ⟨x, List.mem_cons_self x xs, h''⟩
        · exact Or.inr ⟨y, List.mem_cons_of_mem x hy, hQ⟩

/-- Every name in the consolidated dependencies / pypi-dependencies of
`consolidate_aspects` is declared as a direct dependency by some eligible
contributed aspect; names appearing only as constraints never enter. -/
theorem consolidate_aspects_dep_keys (ws : Workspace)
    (aspects : List (ProjectOrFeature × Aspect)) (ca : ConsolidatedAspect)
    (h : consolidate_aspects ws aspects = .ok ca) :
    (∀ n ∈ akeys ca.dependencies, ∃ pa ∈ aspects,
      ws.starting_project.inherit.use_dependencies pa.1.get_project_name ws.starting_project = true
      ∧ n ∈ pa.2.dependencies.map Prod.fst)
    ∧ (∀ n ∈ akeys ca.pypi_dependencies, ∃ pa ∈ aspects,
      ws.starting_project.inherit.use_pypi_dependencies pa.1.get_project_name ws.starting_project
        = true
      ∧ n ∈ pa.2.pypi_dependencies.map Prod.fst) := by
  unfold consolidate_aspects at h
  try dsimp only at h
  obtain ⟨cs, hcs, h⟩ := (except_bind_ok _ _ _).mp h
  try dsimp only at h
  obtain ⟨dp, hdp, h⟩ := (except_bind_ok _ _ _).mp h
  try dsimp only at h
  obtain ⟨env, henv, h⟩ := (except_bind_ok _ _ _).mp h
  obtain rfl : (⟨dp.1, dp.2, env⟩ : ConsolidatedAspect) = ca := by
    simpa [pure, Except.pure] using h
  have key := foldlM_pair_keys _
    (fun pa k =>
      ws.starting_project.inherit.use_dependencies pa.1.get_project_name ws.starting_project = true
      ∧ k ∈ pa.2.dependencies.map Prod.fst)
    (fun pa k =>
      ws.starting_project.inherit.use_pypi_dependencies pa.1.get_project_name ws.starting_project
        = true
      ∧ k ∈ pa.2.pypi_dependencies.map Prod.fst)
    ?_ aspects ([], []) dp hdp
  · constructor
    · intro n hn
      rcases key.1 n hn with h' | ⟨pa, hpa, hP⟩
      · simp [akeys] at h'
      · exact ⟨pa, hpa, hP⟩
    · intro n hn
      rcases key.2 n hn with h' | ⟨pa, hpa, hQ⟩
      · simp [akeys] at h'
      · exact ⟨pa, hpa, hQ⟩
  · intro acc x res' hs
    by_cases hA : (ws.starting_project.inherit.use_dependencies x.1.get_project_name
        ws.starting_project = true)
    all_goals by_cases hB : (ws.starting_project.inherit.use_pypi_dependencies
        x.1.get_project_name ws.starting_project = true)
    all_goals
      first
      | rw [if_pos hA] at hs
      | rw [if_neg hA] at hs
    all_goals obtain ⟨deps, hdeps, hs2⟩ := (except_bind_ok _ _ _).mp hs
    all_goals
      first
      | rw [if_pos hB] at hs2
      | rw [if_neg hB] at hs2
    all_goals obtain ⟨pypi, hpypi, hs3⟩ := (except_bind_ok _ _ _).mp hs2
    all_goals obtain rfl : (deps, pypi) = res' := by simpa [pure, Except.pure] using hs3
    all_goals constructor
    all_goals intro k hk
    · rcases update_specs_keys cs x.1.get_project_name _ acc.1 deps hdeps k hk with h' | h'
      · exact Or.inl h'
      · exact Or.inr ⟨hA, by rwa [map_fst_pairs] at h'⟩
    · rcases update_specs_keys cs x.1.get_project_name _ acc.2 pypi hpypi k hk with h' | h'
      · exact Or.inl h'
      · exact Or.inr ⟨hB, by rwa [map_fst_pairs] at h'⟩
    · rcases update_specs_keys cs x.1.get_project_name _ acc.1 deps hdeps k hk with h' | h'
      · exact Or.inl h'
      · exact Or.inr ⟨hA, by rwa [map_fst_pairs] at h'⟩
    · obtain rfl : acc.2 = pypi := by simpa [pure, Except.pure] using hpypi
      exact Or.inl hk
    · obtain rfl : acc.1 = deps := by simpa [pure, Except.pure] using hdeps
      exact Or.inl hk
    · rcases update_specs_keys cs x.1.get_project_name _ acc.2 pypi hpypi k hk with h' | h'
      · exact Or.inl h'
      · exact Or.inr ⟨hB, by rwa [map_fst_pairs] at h'⟩
    · obtain rfl : acc.1 = deps := by simpa [pure, Except.pure] using hdeps
      exact Or.inl hk
    · obtain rfl : acc.2 = pypi := by simpa [pure, Except.pure] using hpypi
      exact Or.inl hk

/-- Destructuring a successful `consolidate_devenv`: the root dependency maps
come from `consolidate_aspects` over the downstream-ordered root aspects. -/
theorem consolidate_devenv_ok_root (ws : Workspace) (r : ConsolidatedProject)
    (h : consolidate_devenv ws = .ok r) :
    ∃ ra, consolidate_aspects ws
        (ws.iter_downstream.map (fun p => (ProjectOrFeature.proj p, p.get_root_aspect)))
        = .ok ra
      ∧ r.dependencies = ra.dependencies
      ∧ r.pypi_dependencies = ra.pypi_dependencies := by
  unfold consolidate_devenv at h
  obtain ⟨ra, hra, h⟩ := (except_bind_ok _ _ _).mp h
  try dsimp only at h
  obtain ⟨ct, hct, h⟩ := (except_bind_ok _ _ _).mp h
  try dsimp only at h
  obtain ⟨cf, hcf, h⟩ := (except_bind_ok _ _ _).mp h
  refine ⟨ra, hra, ?_⟩
  simp only [pure, Except.pure] at h
  injection h with h
  rw [← h]
  exact ⟨rfl, rfl⟩

/-- C3 fixture: `bootstrap` declares only constraints (`pyqt`, `foobar`),
never direct dependencies. -/
def c3Boot : Project :=
  { name := "bootstrap",
    constraints := [("pyqt", SpecOrStr.str ">=5.15"), ("foobar", SpecOrStr.str "1.0")] }

/-- C3 fixture: `a` sits between `bootstrap` and `b` and declares nothing. -/
def c3A : Project := { name := "a", upstream := ["bootstrap"] }

/-- C3 fixture: the starting project `b` directly depends on `pyqt = "*"`. -/
def c3B : Project :=
  { name := "b", upstream := ["a"], dependencies := [("pyqt", SpecOrStr.str "*")] }

/-- C3 fixture workspace for the chain bootstrap → a → b. -/
def c3Ws : Workspace :=
  ⟨c3B, [("bootstrap", c3Boot), ("a", c3A), ("b", c3B)],
    [("b", ["a"]), ("a", ["bootstrap"]), ("bootstrap", [])], ["bootstrap", "a", "b"]⟩

/-- Expected consolidation of `c3Ws`: `pyqt` sourced from `b` and `bootstrap`
with the constraint's version, and the constraint-only `foobar` absent. -/
def c3Expected : ConsolidatedProject :=
  { name := "b",
    dependencies := [("pyqt", ⟨["b", "bootstrap"], ⟨">=5.15", "", ""⟩⟩)] }

/-- C3 fixture: like `c3A` but also directly depending on `pyqt = "*"`, to show
the constraint seeds only the first encounter. -/
def c3A2 : Project :=
  { name := "a", upstream := ["bootstrap"], dependencies := [("pyqt", SpecOrStr.str "*")] }

/-- C3 fixture workspace where both `a` and `b` declare `pyqt` directly. -/
def c3Ws2 : Workspace :=
  ⟨c3B, [("bootstrap", c3Boot), ("a", c3A2), ("b", c3B)],
    [("b", ["a"]), ("a", ["bootstrap"]), ("bootstrap", [])], ["bootstrap", "a", "b"]⟩

/-- Expected consolidation of `c3Ws2`: the constraint version appears once
(at `a`'s first encounter), `b`'s later declaration merges without
re-applying it. -/
def c3Expected2 : ConsolidatedProject :=
  { name := "b",
    dependencies := [("pyqt", ⟨["a", "bootstrap", "b"], ⟨">=5.15", "", ""⟩⟩)] }

/-- C3.  Constraints never become dependencies on their own: every name in the
consolidated dependencies (and pypi-dependencies) map is directly declared by
some eligible downstream project.  Concretely, in the chain bootstrap → a → b
where only `bootstrap` constrains `pyqt` and only `b` depends on it, the result
is `pyqt = ">=5.15"` sourced from `b` and `bootstrap` while the constraint-only
`foobar` is absent; and with `a` and `b` both declaring `pyqt = "*"` the
constraint is applied exactly once, at the first encounter. -/
theorem c3_constraints_seed_first_encounter (ws : Workspace) (r : ConsolidatedProject)
    (h : consolidate_devenv ws = .ok r) :
    (∀ n ∈ akeys r.dependencies, ∃ p ∈ ws.iter_downstream,
      ws.starting_project.inherit.use_dependencies p.name ws.starting_project = true
      ∧ n ∈ p.dependencies.map Prod.fst)
    ∧ (∀ n ∈ akeys r.pypi_dependencies, ∃ p ∈ ws.iter_downstream,
      ws.starting_project.inherit.use_pypi_dependencies p.name ws.starting_project = true
      ∧ n ∈ p.pypi_dependencies.map Prod.fst)
    ∧ consolidate_devenv c3Ws = .ok c3Expected
    ∧ consolidate_devenv c3Ws2 = .ok c3Expected2
    ∧ "foobar" ∉ akeys c3Expected.dependencies := by
  obtain ⟨ra, hra, hd, hp⟩ := consolidate_devenv_ok_root ws r h
  obtain ⟨keys1, keys2⟩ := consolidate_aspects_dep_keys ws _ ra hra
  refine ⟨?_, ?_, by decide, by decide, by decide⟩
  · intro n hn
    rw [hd] at hn
    obtain ⟨pa, hpa, hel, hdecl⟩ := keys1 n hn
    obtain ⟨p, hp', rfl⟩ := List.mem_map.mp hpa
    exact ⟨p, hp', hel, hdecl⟩
  · intro n hn
    rw [hp] at hn
    obtain ⟨pa, hpa, hel, hdecl⟩ := keys2 n hn
    obtain ⟨p, hp', rfl⟩ := List.mem_map.mp hpa
    exact ⟨p, hp', hel, hdecl⟩

/-- C3 witness: instantiating the provenance part at the concrete chain shows
`pyqt` is backed by a direct declarer (project `b`). -/
theorem c3_constraints_seed_first_encounter_witness :
    ∃ p ∈ c3Ws.iter_downstream,
      c3Ws.starting_project.inherit.use_dependencies p.name c3Ws.starting_project = true
      ∧ "pyqt" ∈ p.dependencies.map Prod.fst := by
  exact (c3_constraints_seed_first_encounter c3Ws c3Expected (by decide)).1 "pyqt" (by decide)

/-! ### Association-list lookup lemmas for the graph proofs -/

theorem alookup_none_iff {α : Type} (l : List (String × α)) (k : String) :
    alookup l k = none ↔ k ∉ akeys l := by
  induction l with
  | nil => simp [alookup, akeys]
  | cons kv t ih =>
    by_cases h : kv.1 = k
    · simp [alookup, akeys, List.find?_cons, h]
    · simp only [alookup, akeys, List.find?_cons, List.map_cons, List.mem_cons] at ih ⊢
      simp [h, ih, Ne.symm h]

theorem alookup_isSome_iff {α : Type} (l : List (String × α)) (k : String) :
    (alookup l k).isSome = true ↔ k ∈ akeys l := by
  rcases hl : alookup l k with _ | v
  · simp only [Option.isSome_none, Bool.false_eq_true, false_iff]
    exact (alookup_none_iff l k).mp hl
  · simp only [Option.isSome_some, true_iff]
    by_contra hk
    rw [← alookup_none_iff l k] at hk
    rw [hl] at hk
    cases hk

theorem mem_akeys_of_alookup {α : Type} {l : List (String × α)} {k : String} {v : α}
    (h : alookup l k = some v) : k ∈ akeys l := by
  rw [← alookup_isSome_iff, h]
  rfl

theorem alookup_append_left {α : Type} {l : List (String × α)} {k : String} {v : α}
    (t : List (String × α)) (h : alookup l k = some v) : alookup (l ++ t) k = some v := by
  unfold alookup at h ⊢
  rcases hf : l.find? (fun kv => kv.1 = k) with _ | kv
  · rw [hf] at h; cases h
  · rw [hf] at h
    rw [List.find?_append, hf]
    exact h

theorem alookup_append_right {α : Type} {l : List (String × α)} {k : String}
    (t : List (String × α)) (h : k ∉ akeys l) : alookup (l ++ t) k = alookup t k := by
  unfold alookup
  rw [List.find?_append]
  have hnone : l.find? (fun kv => kv.1 = k) = none := by
    have := (alookup_none_iff l k).mpr h
    unfold alookup at this
    simpa using this
  rw [hnone]
  rfl

theorem alookup_single {α : Type} (k : String) (v : α) : alookup [(k, v)] k = some v := by
  simp [alookup, List.find?]

/-- Preds of an existing node are unchanged by extending the adjacency map. -/
theorem preds_append_of_mem {g : List (ProjectName × List ProjectName)}
    (t : List (ProjectName × List ProjectName)) {k : ProjectName} (hk : k ∈ akeys g) :
    preds (g ++ t) k = preds g k := by
  unfold preds
  obtain ⟨v, hv⟩ := Option.isSome_iff_exists.mp ((alookup_isSome_iff g k).mpr hk)
  rw [hv, alookup_append_left t hv]

/-- The freshly appended node's preds are its recorded upstream list. -/
theorem preds_append_new {g : List (ProjectName × List ProjectName)} {n : ProjectName}
    (ups : List ProjectName) (hn : n ∉ akeys g) :
    preds (g ++ [(n, ups)]) n = ups := by
  unfold preds
  rw [alookup_append_right [(n, ups)] hn, alookup_single]
  rfl

/-- A pred edge survives extending the adjacency map. -/
theorem preds_mono {g t : List (ProjectName × List ProjectName)} {x y : ProjectName}
    (h : y ∈ preds g x) : y ∈ preds (g ++ t) x := by
  unfold preds at h ⊢
  rcases hl : alookup g x with _ | l
  · rw [hl] at h; simp at h
  · rw [hl] at h
    rw [alookup_append_left t hl]
    exact h

/-- Transitive upstream reachability along the `preds` edges of an adjacency
map: `UpPath g x y` means `y` is a direct or transitive upstream of `x`. -/
inductive UpPath (g : List (ProjectName × List ProjectName)) :
    ProjectName → ProjectName → Prop
  | direct {x y : ProjectName} (h : y ∈ preds g x) : UpPath g x y
  | step {x y z : ProjectName} (h : y ∈ preds g x) (h' : UpPath g y z) : UpPath g x z

theorem UpPath.mono {g t : List (ProjectName × List ProjectName)} {x y : ProjectName}
    (hp : UpPath g x y) : UpPath (g ++ t) x y := by
  induction hp with
  | direct h => exact UpPath.direct (preds_mono h)
  | step h _ ih => exact UpPath.step (preds_mono h) ih

theorem UpPath.append_edge {g : List (ProjectName × List ProjectName)}
    {x v n : ProjectName} (hp : UpPath g x v) (hn : n ∈ preds g v) : UpPath g x n := by
  induction hp with
  | direct h => exact UpPath.step h (UpPath.direct hn)
  | step h _ ih => exact UpPath.step h (ih hn)

/-! ### Kahn-run invariants -/

theorem alookup_eq_of_mem_nodup {α : Type} {g : List (String × α)} (hnd : (akeys g).Nodup) :
    ∀ kv ∈ g, alookup g kv.1 = some kv.2 := by
  induction g with
  | nil => intro kv h; cases h
  | cons hd t ih =>
    intro kv hkv
    rcases List.mem_cons.mp hkv with rfl | hmem
    · simp [alookup, List.find?_cons]
    · have hnd' : (hd.1 :: akeys t).Nodup := by simpa [akeys] using hnd
      have hkt : kv.1 ∈ akeys t := by
        unfold akeys
        exact List.mem_map_of_mem _ hmem
      have hne : hd.1 ≠ kv.1 := fun he => (List.nodup_cons.mp hnd').1 (he ▸ hkt)
      have ihres := ih (List.nodup_cons.mp hnd').2 kv hmem
      simpa [alookup, List.find?_cons, hne] using ihres

/-- A node emitted by `kahnReady` is an unemitted key all of whose
predecessors are emitted. -/
theorem kahnReady_mem {g : List (ProjectName × List ProjectName)}
    (hnd : (akeys g).Nodup) {done : List ProjectName} {k : ProjectName}
    (hk : k ∈ kahnReady g done) :
    k ∈ akeys g ∧ k ∉ done ∧ ∀ p ∈ preds g k, p ∈ done := by
  unfold kahnReady at hk
  obtain ⟨kv, hkv, rfl⟩ := List.mem_map.mp hk
  obtain ⟨hmem, hcond⟩ := List.mem_filter.mp hkv
  simp only [Bool.and_eq_true, Bool.not_eq_true', decide_eq_false_iff_not,
    List.all_eq_true, decide_eq_true_eq] at hcond
  refine ⟨List.mem_map_of_mem _ hmem, hcond.1, ?_⟩
  have hp : preds g kv.1 = kv.2 := by
    unfold preds
    rw [alookup_eq_of_mem_nodup hnd kv hmem]
    rfl
  rw [hp]
  exact hcond.2

theorem kahnReady_nodup {g : List (ProjectName × List ProjectName)}
    (hnd : (akeys g).Nodup) (done : List ProjectName) : (kahnReady g done).Nodup := by
  unfold kahnReady
  have hnd' : (g.map (fun kv => kv.1)).Nodup := hnd
  exact ((List.filter_sublist g).map (fun kv => kv.1)).nodup hnd'

/-- Every element of `done` appears after all of its predecessors. -/
def TopoOrdered (g : List (ProjectName × List ProjectName)) (done : List ProjectName) : Prop :=
  ∀ l1 b l2, done = l1 ++ b :: l2 → ∀ p ∈ preds g b, p ∈ l1

/-- The invariant a Kahn run maintains on the emitted list. -/
def DoneInv (g : List (ProjectName × List ProjectName)) (done : List ProjectName) : Prop :=
  TopoOrdered g done ∧ done.Nodup ∧ ∀ d ∈ done, d ∈ akeys g

theorem append_split {α : Type} {d r l1 l2 : List α} {b : α} (h : d ++ r = l1 ++ b :: l2) :
    (∃ t, d = l1 ++ b :: t ∧ l2 = t ++ r) ∨ (∃ s, l1 = d ++ s ∧ r = s ++ b :: l2) := by
  rcases List.append_eq_append_iff.mp h with ⟨a', ha1, ha2⟩ | ⟨c', hc1, hc2⟩
  · exact Or.inr ⟨a', ha1, ha2⟩
  · cases c' with
    | nil =>
      refine Or.inr ⟨[], ?_, ?_⟩
      · simpa using hc1.symm
      · simpa using hc2.symm
    | cons x t =>
      rw [List.cons_append] at hc2
      injection hc2 with hx hl2
      subst hx
      exact Or.inl ⟨t, hc1, hl2⟩

theorem DoneInv_step {g : List (ProjectName × List ProjectName)}
    (hnd : (akeys g).Nodup) {done : List ProjectName} (hinv : DoneInv g done) :
    DoneInv g (done ++ kahnReady g done) := by
  obtain ⟨htopo, hdnd, hsub⟩ := hinv
  refine ⟨?_, ?_, ?_⟩
  · intro l1 b l2 hsplit p hp
    rcases append_split hsplit with ⟨t, hd, _⟩ | ⟨s, hl1, hr⟩
    · exact htopo l1 b t hd p hp
    · have hb : b ∈ kahnReady g done := by
        rw [hr]
        exact List.mem_append.mpr (Or.inr (List.mem_cons_self b l2))
      have := (kahnReady_mem hnd hb).2.2 p hp
      rw [hl1]
      exact List.mem_append.mpr (Or.inl this)
  · refine List.Nodup.append hdnd (kahnReady_nodup hnd done) ?_
    intro a ha hra
    exact (kahnReady_mem hnd hra).2.1 ha
  · intro d hd
    rcases List.mem_append.mp hd with h | h
    · exact hsub d h
    · exact (kahnReady_mem hnd h).1

theorem DoneInv_run {g : List (ProjectName × List ProjectName)}
    (hnd : (akeys g).Nodup) :
    ∀ (fuel : Nat) (done : List ProjectName), DoneInv g done →
      DoneInv g (kahnRun g fuel done) := by
  intro fuel
  induction fuel with
  | zero => exact fun done h => h
  | succ fuel ih =>
    intro done h
    unfold kahnRun
    split
    · exact h
    · exact ih _ (DoneInv_step hnd h)

/-- Transitive version of `TopoOrdered`: everything transitively upstream of
an occurrence lies strictly before it. -/
theorem topo_trans {g : List (ProjectName × List ProjectName)} {order : List ProjectName}
    (htopo : TopoOrdered g order) :
    ∀ {b p : ProjectName}, UpPath g b p → ∀ l1 l2, order = l1 ++ b :: l2 → p ∈ l1 := by
  intro b p hpath
  induction hpath with
  | direct h =>
    intro l1 l2 hsplit
    exact htopo l1 _ l2 hsplit _ h
  | step h _ ih =>
    intro l1 l2 hsplit
    rename_i x y z _
    have hy : y ∈ l1 := htopo l1 _ l2 hsplit _ h
    obtain ⟨u, v, rfl⟩ := List.append_of_mem hy
    have hz : z ∈ u := by
      refine ih u (v ++ x :: l2) ?_
      rw [hsplit]
      simp
    exact List.mem_append.mpr (Or.inl hz)

/-- A node lying on a cycle is never emitted by a topologically ordered,
duplicate-free run. -/
theorem no_cycle_in_done {g : List (ProjectName × List ProjectName)}
    {done : List ProjectName} (htopo : TopoOrdered g done) (hnd : done.Nodup)
    {n : ProjectName} (hcyc : UpPath g n n) : n ∉ done := by
  intro hmem
  obtain ⟨s, t, rfl⟩ := List.append_of_mem hmem
  have hin : n ∈ s := topo_trans htopo hcyc s t rfl
  exact List.disjoint_of_nodup_append hnd hin (List.mem_cons_self n t)

theorem cycleWalk_ne_nil (g : List (ProjectName × List ProjectName))
    (remaining : List ProjectName) :
    ∀ (fuel : Nat) (path : List ProjectName) (cur : ProjectName),
      path ≠ [] ∨ 0 < fuel → cycleWalk g remaining fuel path cur ≠ [] := by
  intro fuel
  induction fuel with
  | zero =>
    intro path cur h
    rcases h with h | h
    · exact h
    · cases h
  | succ fuel ih =>
    intro path cur _
    unfold cycleWalk
    split
    · rename_i hcur
      rw [Ne, List.dropWhile_eq_nil_iff]
      intro hall
      have := hall cur hcur
      simp at this
    · split
      · simp
      · exact ih (path ++ [cur]) _ (Or.inl (by simp))

theorem findCycle_ne_nil (g : List (ProjectName × List ProjectName))
    {remaining : List ProjectName} (h : remaining ≠ []) :
    findCycle g remaining ≠ [] := by
  unfold findCycle
  cases remaining with
  | nil => exact absurd rfl h
  | cons r rs => exact cycleWalk_ne_nil g (r :: rs) (rs.length + 1 + 1) [] r (Or.inr (by simp))

/-- A cyclic adjacency map makes `topoSort` fail, with a non-empty member
list. -/
theorem topoSort_cycle {g : List (ProjectName × List ProjectName)}
    (hnd : (akeys g).Nodup) {n : ProjectName} (hn : n ∈ akeys g)
    (hcyc : UpPath g n n) :
    ∃ members, topoSort g = .error members ∧ members ≠ [] := by
  have hinv := DoneInv_run hnd g.length []
    ⟨fun l1 b l2 hs => (by cases l1 <;> cases hs), List.nodup_nil, fun d hd => (by cases hd)⟩
  have hnotin : n ∉ kahnRun g g.length [] := no_cycle_in_done hinv.1 hinv.2.1 hcyc
  unfold topoSort
  have hguard : ¬((g.map (fun kv => kv.1)).all (fun k => k ∈ kahnRun g g.length []) = true) := by
    rw [List.all_eq_true]
    intro hall
    have := hall n (by simpa [akeys] using hn)
    exact hnotin (by simpa using this)
  rw [if_neg hguard]
  refine ⟨_, rfl, ?_⟩
  apply findCycle_ne_nil
  intro hempty
  have hrem : n ∈ (g.map (fun kv => kv.1)).filter
      (fun k => !(k ∈ kahnRun g g.length [] : Bool)) := by
    rw [List.mem_filter]
    exact ⟨by simpa [akeys] using hn, by simpa using hnotin⟩
  rw [hempty] at hrem
  cases hrem

/-- A successful `topoSort` emits a duplicate-free, topologically ordered
enumeration of exactly the keys. -/
theorem topoSort_ok_inv {g : List (ProjectName × List ProjectName)}
    {order : List ProjectName} (hnd : (akeys g).Nodup) (h : topoSort g = .ok order) :
    TopoOrdered g order ∧ order.Nodup ∧ (∀ d ∈ order, d ∈ akeys g)
      ∧ ∀ k ∈ akeys g, k ∈ order := by
  have hinv := DoneInv_run hnd g.length []
    ⟨fun l1 b l2 hs => (by cases l1 <;> cases hs), List.nodup_nil, fun d hd => (by cases hd)⟩
  unfold topoSort at h
  split at h
  · rename_i hall
    injection h with h
    subst h
    refine ⟨hinv.1, hinv.2.1, hinv.2.2, ?_⟩
    intro k hk
    rw [List.all_eq_true] at hall
    have := hall k (by simpa [akeys] using hk)
    simpa using this
  · cases h

/-! ### Traversal invariants of `buildLoop` -/

/-- Invariants carried through the stack traversal: graph and project keys
coincide and are duplicate-free; recorded edges point at visited nodes or at
stack entries; stack entries are the start or upstream of a visited node;
every visited node is reachable from the start.  On success this yields a
closed, duplicate-free adjacency map whose nodes are all reachable, plus
persistence of recorded projects. -/
theorem buildLoop_inv (table : List (ProjectName × Project)) (start : ProjectName) :
    ∀ (fuel : Nat) (stack : List ProjectName) (ps : List (ProjectName × Project))
      (g : List (ProjectName × List ProjectName))
      (ps' : List (ProjectName × Project)) (g' : List (ProjectName × List ProjectName)),
      buildLoop table fuel stack ps g = .ok (ps', g') →
      akeys g = akeys ps →
      (akeys g).Nodup →
      (∀ k ∈ akeys g, ∀ p ∈ preds g k, p ∈ akeys g ∨ p ∈ stack) →
      (∀ m ∈ stack, m = start ∨ ∃ v ∈ akeys g, m ∈ preds g v) →
      (∀ k ∈ akeys g, k = start ∨ UpPath g start k) →
      akeys g' = akeys ps'
        ∧ (akeys g').Nodup
        ∧ (∀ k ∈ akeys g', ∀ p ∈ preds g' k, p ∈ akeys g')
        ∧ (∀ k ∈ akeys g', k = start ∨ UpPath g' start k)
        ∧ (∀ k v, alookup ps k = some v → alookup ps' k = some v)
        ∧ (∀ k ∈ akeys g, k ∈ akeys g') := by
  intro fuel
  induction fuel with
  | zero =>
    intro stack ps g ps' g' h hkeys hnd hcl hstk hreach
    cases stack with
    | cons n rest => cases h
    | nil =>
      injection h with h
      injection h with h1 h2
      subst h1
      subst h2
      refine ⟨hkeys, hnd, ?_, hreach, fun k v hv => hv, fun k hk => hk⟩
      intro k hk p hp
      rcases hcl k hk p hp with h' | h'
      · exact h'
      · cases h'
  | succ fuel ih =>
    intro stack ps g ps' g' h hkeys hnd hcl hstk hreach
    cases stack with
    | nil =>
      injection h with h
      injection h with h1 h2
      subst h1
      subst h2
      refine ⟨hkeys, hnd, ?_, hreach, fun k v hv => hv, fun k hk => hk⟩
      intro k hk p hp
      rcases hcl k hk p hp with h' | h'
      · exact h'
      · cases h'
    | cons n rest =>
      simp only [buildLoop] at h
      by_cases hvis : (alookup ps n).isSome = true
      · rw [if_pos hvis] at h
        refine ih rest ps g ps' g' h hkeys hnd ?_ ?_ hreach
        · intro k hk p hp
          rcases hcl k hk p hp with h' | h'
          · exact Or.inl h'
          · rcases List.mem_cons.mp h' with rfl | h''
            · exact Or.inl (by rw [hkeys]; exact (alookup_isSome_iff ps p).mp hvis)
            · exact Or.inr h''
        · exact fun m hm => hstk m (List.mem_cons_of_mem n hm)
      · rw [if_neg hvis] at h
        cases hlk : alookup table n with
        | none => rw [hlk] at h; cases h
        | some p =>
          rw [hlk] at h
          have hn_not : n ∉ akeys g := by
            rw [hkeys]
            exact fun hc => hvis ((alookup_isSome_iff ps n).mpr hc)
          have hkeys2 : akeys (g ++ [(n, p.upstream)]) = akeys (ps ++ [(n, p)]) := by
            rw [akeys_append, akeys_append, hkeys]
            rfl
          have hnd2 : (akeys (g ++ [(n, p.upstream)])).Nodup := by
            rw [akeys_append]
            refine List.Nodup.append hnd (by simp [akeys]) ?_
            intro a ha hb
            have : a = n := by simpa [akeys] using hb
            subst this
            exact hn_not ha
          have hcl2 : ∀ k ∈ akeys (g ++ [(n, p.upstream)]),
              ∀ q ∈ preds (g ++ [(n, p.upstream)]) k,
                q ∈ akeys (g ++ [(n, p.upstream)]) ∨ q ∈ p.upstream.reverse ++ rest := by
            intro k hk q hq
            rw [akeys_append] at hk
            rcases List.mem_append.mp hk with hk' | hk'
            · rw [preds_append_of_mem _ hk'] at hq
              rcases hcl k hk' q hq with h' | h'
              · left
                rw [akeys_append]
                exact List.mem_append.mpr (Or.inl h')
              · rcases List.mem_cons.mp h' with rfl | h''
                · left
                  rw [akeys_append]
                  exact List.mem_append.mpr (Or.inr (by simp [akeys]))
                · exact Or.inr (List.mem_append.mpr (Or.inr h''))
            · have hk2 : k = n := by simpa [akeys] using hk'
              subst hk2
              rw [preds_append_new _ hn_not] at hq
              exact Or.inr (List.mem_append.mpr (Or.inl (List.mem_reverse.mpr hq)))
          have hstk2 : ∀ m ∈ p.upstream.reverse ++ rest,
              m = start ∨ ∃ v ∈ akeys (g ++ [(n, p.upstream)]),
                m ∈ preds (g ++ [(n, p.upstream)]) v := by
            intro m hm
            rcases List.mem_append.mp hm with hm' | hm'
            · right
              refine ⟨n, ?_, ?_⟩
              · rw [akeys_append]
                exact List.mem_append.mpr (Or.inr (by simp [akeys]))
              · rw [preds_append_new _ hn_not]
                exact List.mem_reverse.mp hm'
            · rcases hstk m (List.mem_cons_of_mem n hm') with h' | ⟨v, hv, hpv⟩
              · exact Or.inl h'
              · right
                refine ⟨v, ?_, ?_⟩
                · rw [akeys_append]
                  exact List.mem_append.mpr (Or.inl hv)
                · rw [preds_append_of_mem _ hv]
                  exact hpv
          have hreach2 : ∀ k ∈ akeys (g ++ [(n, p.upstream)]),
              k = start ∨ UpPath (g ++ [(n, p.upstream)]) start k := by
            intro k hk
            rw [akeys_append] at hk
            rcases List.mem_append.mp hk with hk' | hk'
            · rcases hreach k hk' with h' | h'
              · exact Or.inl h'
              · exact Or.inr h'.mono
            · have hk2 : k = n := by simpa [akeys] using hk'
              rw [hk2]
              rcases hstk n (List.mem_cons_self n rest) with h' | ⟨v, hv, hpv⟩
              · exact Or.inl h'
              · right
                have hpv2 : n ∈ preds (g ++ [(n, p.upstream)]) v := by
                  rw [preds_append_of_mem _ hv]
                  exact hpv
                rcases hreach v hv with rfl | hup
                · exact UpPath.direct hpv2
                · exact hup.mono.append_edge hpv2
          obtain ⟨r1, r2, r3, r4, r5, r6⟩ :=
            ih _ _ _ _ _ h hkeys2 hnd2 hcl2 hstk2 hreach2
          refine ⟨r1, r2, r3, r4, ?_, ?_⟩
          · intro k v hv
            exact r5 k v (alookup_append_left _ hv)
          · intro k hk
            exact r6 k (by rw [akeys_append]; exact List.mem_append.mpr (Or.inl hk))

/-- The traversal's result on success: key coincidence, no duplicates,
edge-closure, and reachability of every node from the start. -/
theorem buildGraph_inv (table : List (ProjectName × Project)) (start : ProjectName)
    (ps : List (ProjectName × Project)) (g : List (ProjectName × List ProjectName))
    (h : buildGraph table start = .ok (ps, g)) :
    akeys g = akeys ps ∧ (akeys g).Nodup
    ∧ (∀ k ∈ akeys g, ∀ p ∈ preds g k, p ∈ akeys g)
    ∧ (∀ k ∈ akeys g, k = start ∨ UpPath g start k) := by
  have hres := buildLoop_inv table start (buildFuel table) [start] [] [] ps g h rfl
    (by simp [akeys]) (by intro k hk; simp [akeys] at hk)
    (fun m hm => Or.inl (by simpa using hm)) (by intro k hk; simp [akeys] at hk)
  exact ⟨hres.1, hres.2.1, hres.2.2.1, hres.2.2.2.1⟩

/-- The traversal processes the starting project first: on success the start
is a recorded node and its project is the one loaded from the table. -/
theorem buildGraph_ok_start (table : List (ProjectName × Project)) (start : ProjectName)
    (ps : List (ProjectName × Project)) (g : List (ProjectName × List ProjectName))
    (h : buildGraph table start = .ok (ps, g)) :
    ∃ sp, alookup table start = some sp ∧ alookup ps start = some sp ∧ start ∈ akeys g := by
  unfold buildGraph buildFuel at h
  simp only [buildLoop] at h
  rw [show alookup ([] : List (ProjectName × Project)) start = none from rfl] at h
  simp only [Option.isSome_none, Bool.false_eq_true, if_false] at h
  cases hlk : alookup table start with
  | none => rw [hlk] at h; cases h
  | some sp =>
    rw [hlk] at h
    have hsingle : preds ([] ++ [(start, sp.upstream)]) start = sp.upstream := by
      simp only [List.nil_append]
      unfold preds
      rw [alookup_single]
      rfl
    have hcl0 : ∀ k ∈ akeys ([] ++ [(start, sp.upstream)]),
        ∀ q ∈ preds ([] ++ [(start, sp.upstream)]) k,
          q ∈ akeys ([] ++ [(start, sp.upstream)]) ∨ q ∈ sp.upstream.reverse ++ [] := by
      intro k hk q hq
      have hk2 : k = start := by simpa [akeys] using hk
      rw [hk2, hsingle] at hq
      right
      simpa using hq
    have hstk0 : ∀ m ∈ sp.upstream.reverse ++ [],
        m = start ∨ ∃ v ∈ akeys ([] ++ [(start, sp.upstream)]),
          m ∈ preds ([] ++ [(start, sp.upstream)]) v := by
      intro m hm
      right
      refine ⟨start, by simp [akeys], ?_⟩
      rw [hsingle]
      simpa using hm
    have hreach0 : ∀ k ∈ akeys ([] ++ [(start, sp.upstream)]),
        k = start ∨ UpPath ([] ++ [(start, sp.upstream)]) start k := by
      intro k hk
      exact Or.inl (by simpa [akeys] using hk)
    have hres := buildLoop_inv table start _ _ _ _ ps g h
      (by simp [akeys]) (by simp [akeys]) hcl0 hstk0 hreach0
    refine ⟨sp, rfl, ?_, ?_⟩
    · refine hres.2.2.2.2.1 start sp ?_
      simp only [List.nil_append]
      exact alookup_single start sp
    · exact hres.2.2.2.2.2 start (by simp [akeys])

/-- In a topological order covering a graph whose every node is reachable from
`start`, the start is the last element. -/
theorem order_start_last {g : List (ProjectName × List ProjectName)}
    {order : List ProjectName} {start : ProjectName}
    (htopo : TopoOrdered g order) (hnd : order.Nodup)
    (hsub : ∀ d ∈ order, d ∈ akeys g) (hcomp : ∀ k ∈ akeys g, k ∈ order)
    (hstart : start ∈ akeys g)
    (hreach : ∀ k ∈ akeys g, k = start ∨ UpPath g start k) :
    ∃ l1, order = l1 ++ [start] := by
  obtain ⟨l1, l2, rfl⟩ := List.append_of_mem (hcomp start hstart)
  refine ⟨l1, ?_⟩
  cases l2 with
  | nil => rfl
  | cons y t =>
    exfalso
    have hy : y ∈ akeys g := hsub y (by simp)
    rcases hreach y hy with rfl | hpath
    · have := List.Nodup.of_append_right hnd
      exact (List.nodup_cons.mp this).1 (List.mem_cons_self y t)
    · have hy1 : y ∈ l1 := topo_trans htopo hpath l1 (y :: t) rfl
      exact List.disjoint_of_nodup_append hnd hy1 (by simp)

/-- C7.  A successfully built workspace's upstream-to-downstream order is
topological — every project appears after all its direct and transitive
upstream projects — with the starting project last; the downstream-to-upstream
iteration is exactly the reverse, starting project first. -/
theorem c7_topological_order (table : List (ProjectName × Project)) (start : ProjectName)
    (ws : Workspace) (h : from_starting_file table start = .ok ws) :
    (∀ l1 b l2, ws.upstream_to_downstream_order = l1 ++ b :: l2 →
        ∀ p, UpPath ws.graph b p → p ∈ l1)
    ∧ ws.upstream_to_downstream_order.getLast? = some start
    ∧ ws.iter_upstream = ws.iter_downstream.reverse
    ∧ ws.iter_downstream.getLast? = some ws.starting_project
    ∧ ws.iter_upstream.head? = some ws.starting_project := by
  unfold from_starting_file at h
  cases hlk : alookup table start with
  | none => rw [hlk] at h; cases h
  | some sp =>
    rw [hlk] at h
    cases hbg : buildGraph table start with
    | error e => rw [hbg] at h; cases h
    | ok pg =>
      obtain ⟨ps, g⟩ := pg
      rw [hbg] at h
      try dsimp only at h
      cases hts : topoSort g with
      | error m => rw [hts] at h; cases h
      | ok order =>
        rw [hts] at h
        injection h with h
        subst h
        obtain ⟨hkeq, hnd, hclosed, hreach⟩ := buildGraph_inv table start ps g hbg
        obtain ⟨sp', hlk', hps, hstart_g⟩ := buildGraph_ok_start table start ps g hbg
        have hsp : sp = sp' := by
          rw [hlk] at hlk'
          exact Option.some.inj hlk'
        subst hsp
        obtain ⟨htopo, hordnd, hordsub, hcomp⟩ := topoSort_ok_inv hnd hts
        obtain ⟨l1, hord⟩ :=
          order_start_last htopo hordnd hordsub hcomp hstart_g hreach
        refine ⟨?_, ?_, ?_, ?_, ?_⟩
        · intro l1' b l2' hsplit p hp
          exact topo_trans htopo hp l1' l2' hsplit
        · rw [hord]
          exact List.getLast?_concat l1
        · show (Workspace.mk sp ps g order).iter_upstream
            = (Workspace.mk sp ps g order).iter_downstream.reverse
          unfold Workspace.iter_upstream Workspace.iter_downstream
          exact List.filterMap_reverse _ order
        · show ((Workspace.mk sp ps g order).iter_downstream).getLast? = some sp
          unfold Workspace.iter_downstream
          show (order.filterMap (fun n => alookup ps n)).getLast? = some sp
          rw [hord, List.filterMap_append]
          have : List.filterMap (fun n => alookup ps n) [start] = [sp] := by
            simp [List.filterMap_cons, hps]
          rw [this]
          exact List.getLast?_concat _
        · show ((Workspace.mk sp ps g order).iter_upstream).head? = some sp
          unfold Workspace.iter_upstream
          rw [List.filterMap_reverse, List.head?_reverse]
          show (order.filterMap (fun n => alookup ps n)).getLast? = some sp
          rw [hord, List.filterMap_append]
          have : List.filterMap (fun n => alookup ps n) [start] = [sp] := by
            simp [List.filterMap_cons, hps]
          rw [this]
          exact List.getLast?_concat _

/-- C7 fixture: the upstream chain bootstrap ← a ← b. -/
def c7Boot : Project := { name := "bootstrap" }

/-- C7 fixture: middle project. -/
def c7A : Project := { name := "a", upstream := ["bootstrap"] }

/-- C7 fixture: starting project. -/
def c7B : Project := { name := "b", upstream := ["a"] }

/-- C7 fixture table (the file system handed to the graph builder). -/
def c7Table : List (ProjectName × Project) :=
  [("bootstrap", c7Boot), ("a", c7A), ("b", c7B)]

/-- The workspace `from_starting_file` builds for `c7Table` from `b`. -/
def c7Expected : Workspace :=
  ⟨c7B, [("b", c7B), ("a", c7A), ("bootstrap", c7Boot)],
    [("b", ["a"]), ("a", ["bootstrap"]), ("bootstrap", [])],
    ["bootstrap", "a", "b"]⟩

/-- C7 witness: on the concrete chain the builder succeeds and the theorem
yields starting-project-last and reverse-iteration facts. -/
theorem c7_topological_order_witness :
    from_starting_file c7Table "b" = .ok c7Expected
    ∧ c7Expected.upstream_to_downstream_order.getLast? = some "b"
    ∧ c7Expected.iter_upstream = c7Expected.iter_downstream.reverse
    ∧ c7Expected.iter_upstream.head? = some c7Expected.starting_project := by
  have hok : from_starting_file c7Table "b" = .ok c7Expected := by decide
  have hres := c7_topological_order c7Table "b" c7Expected hok
  exact ⟨hok, hres.2.1, hres.2.2.1, hres.2.2.2.2⟩

/-- C8 fixture: project `a` upstream of `b` and vice versa (a 2-cycle). -/
def c8A : Project := { name := "a", upstream := ["b"] }

/-- C8 fixture: the other half of the 2-cycle. -/
def c8B : Project := { name := "b", upstream := ["a"] }

/-- C8 fixture table for the 2-cycle a → b → a. -/
def c8Table : List (ProjectName × Project) := [("a", c8A), ("b", c8B)]

/-- The adjacency map the traversal builds for `c8Table` from `a`. -/
def c8Graph : List (ProjectName × List ProjectName) := [("a", ["b"]), ("b", ["a"])]

/-- C8.  When the traversal succeeds but its graph contains a cycle, workspace
construction fails with the cycle error carrying a non-empty member list, and
no `Workspace` value is returned; on the concrete 2-cycle a → b → a the error
names both `a` and `b`. -/
theorem c8_cycle_fails (table : List (ProjectName × Project)) (start : ProjectName)
    (sp : Project) (ps : List (ProjectName × Project))
    (g : List (ProjectName × List ProjectName))
    (hlk : alookup table start = some sp)
    (hbuild : buildGraph table start = .ok (ps, g))
    (hcyc : ∃ n ∈ akeys g, UpPath g n n) :
    (∃ members, from_starting_file table start = .error (.cycle members) ∧ members ≠ [])
    ∧ from_starting_file c8Table "a" = .error (.cycle ["a", "b"]) := by
  constructor
  · obtain ⟨n, hn, hpath⟩ := hcyc
    obtain ⟨_, hnd, _, _⟩ := buildGraph_inv table start ps g hbuild
    obtain ⟨members, hts, hne⟩ := topoSort_cycle hnd hn hpath
    refine ⟨members, ?_, hne⟩
    unfold from_starting_file
    rw [hlk, hbuild]
    try dsimp only
    rw [hts]
  · decide

/-- C8 witness: the 2-cycle instance of the theorem, with the cycle
`a → b → a` exhibited as an explicit `UpPath`. -/
theorem c8_cycle_fails_witness :
    ∃ members, from_starting_file c8Table "a" = .error (.cycle members) ∧ members ≠ [] := by
  refine (c8_cycle_fails c8Table "a" c8A [("a", c8A), ("b", c8B)] c8Graph
    (by decide) (by decide) ?_).1
  refine ⟨"a", by decide, ?_⟩
  exact UpPath.step (y := "b") (by decide) (UpPath.direct (by decide))

end PixiDevenv
